import Mathlib

/-!
# MemX: guarded access to a process's own address space

A shallow embedding of `MemX/MemX.h`.

* Addresses and sizes are natural numbers; pointer and `uintptr_t` arithmetic is
  reduced modulo `2 ^ 64` wherever the source computes with it.
* Memory is a flat byte store (`Mem`): a load at any address yields a byte and a
  store at any address succeeds.  Page protection is not part of the source and
  is not part of the model.
* The function-local `static` variables (`ranges` in `GetFullAddr`, `imageBase` in
  `GetImageBase`) are fields of the explicit `State`; every function that touches
  them takes a state and returns the new one.
* The dyld bookkeeping (`_dyld_image_count`, `_dyld_get_image_name`,
  `_dyld_get_image_header`, `_dyld_get_image_vmaddr_slide`) is the list
  `State.images`.
* The constants and record layouts of `<mach-o/loader.h>` are a parameter (`ABI`).
* A call that need not return has an `Outcome`: `ReadString` allocates a vector
  of `max_len + 1` bytes, whose constructor can throw, and copies `max_len` bytes
  into it, which overruns the vector when `max_len + 1` has wrapped to `0`.
-/

namespace MemX

/-! ## Memory -/

/-- The byte store of the process: address to byte. -/
abbrev Mem := Nat → Nat

/-- Load of one byte; the address is a 64-bit pointer. -/
def load8 (m : Mem) (a : Nat) : Nat := m (a % 2 ^ 64) % 256

/-- Store of one byte; the address is a 64-bit pointer. -/
def store8 (m : Mem) (a b : Nat) : Mem :=
  fun x => if x = a % 2 ^ 64 then b % 256 else m x

/-- Load of a `uint32_t` field (little endian, as on every dyld target). -/
def load32 (m : Mem) (a : Nat) : Nat :=
  load8 m a + 256 * load8 m (a + 1) + 65536 * load8 m (a + 2) + 16777216 * load8 m (a + 3)

/-- Load of a `uint64_t` field (little endian). -/
def load64 (m : Mem) (a : Nat) : Nat :=
  load32 m a + 4294967296 * load32 m (a + 4)

/-- The `len` bytes at `a`, `a + 1`, ... (the source of a `memcpy`). -/
def loadBytes (m : Mem) : Nat → Nat → List Nat
  | _, 0 => []
  | a, len + 1 => load8 m a :: loadBytes m (a + 1) len

/-- Store of consecutive bytes at `a`, `a + 1`, ... -/
def storeBytes (m : Mem) : Nat → List Nat → Mem
  | _, [] => m
  | a, b :: bs => storeBytes (store8 m a b) (a + 1) bs

/-- The effect of `memcpy(buffer, src, len)` on a local buffer, `bytes` being the
`len` source bytes: they replace the first `len` bytes of the buffer.  A copy
longer than the buffer is undefined behaviour; `Read` never makes one, and
`ReadString` reports it as `Outcome.overrun` and does not use the result. -/
def memcpy (buffer bytes : List Nat) : List Nat :=
  bytes ++ buffer.drop bytes.length

/-- The characters of a NUL-terminated string: everything before the first NUL.
This is what `std::string(const char*)` and `strstr` read through a `char*`. -/
def c_str (s : List Nat) : List Nat := s.takeWhile (fun c => c != 0)

/-! ## The loader's data and the Mach-O layout -/

/-- Constants and record layout of `<mach-o/loader.h>`.  The header is included
by the source and is not part of the repository, so its values are a parameter.
`magic`, `ncmds`, `cmd` and `cmdsize` are `uint32_t` fields, `vmaddr` and
`vmsize` are `uint64_t` fields of `segment_command_64`. -/
structure ABI where
  MH_MAGIC : Nat
  MH_MAGIC_64 : Nat
  LC_SEGMENT : Nat
  LC_SEGMENT_64 : Nat
  sizeof_mach_header : Nat
  sizeof_mach_header_64 : Nat
  off_magic : Nat
  off_ncmds : Nat
  off_ncmds_64 : Nat
  off_cmd : Nat
  off_cmdsize : Nat
  off_vmaddr : Nat
  off_vmsize : Nat

/-- The values `<mach-o/loader.h>` has on Darwin. -/
def darwin : ABI where
  MH_MAGIC := 0xfeedface
  MH_MAGIC_64 := 0xfeedfacf
  LC_SEGMENT := 0x1
  LC_SEGMENT_64 := 0x19
  sizeof_mach_header := 28
  sizeof_mach_header_64 := 32
  off_magic := 0
  off_ncmds := 16
  off_ncmds_64 := 16
  off_cmd := 0
  off_cmdsize := 4
  off_vmaddr := 24
  off_vmsize := 32

/-- One entry of dyld's image list: the characters of the NUL-terminated string
`_dyld_get_image_name(i)` returns, the pointer `_dyld_get_image_header(i)`
returns (`0` is the null pointer) and the value of
`_dyld_get_image_vmaddr_slide(i)`. -/
structure Image where
  name : List Nat
  header : Nat
  slide : Int
deriving DecidableEq

/-- The source's `struct AddrRange`; `end_` is its field `end`. -/
structure AddrRange where
  start : Nat
  end_ : Nat
deriving DecidableEq, Repr

/-- Process state. `ranges` is the `static` vector of `GetFullAddr`, `imageBase`
the `static` of `GetImageBase`.  `walks` and `scans` are ghost counters: how often
the image loop of `GetFullAddr`, resp. of `GetImageBase`, has been entered. -/
structure State where
  mem : Mem
  images : List Image
  ranges : List AddrRange
  imageBase : Nat
  walks : Nat
  scans : Nat

/-! ## GetImageBase -/

/-- Whether `needle` occurs in `hay` starting at its first character. -/
def startsWith : List Nat → List Nat → Bool
  | _, [] => true
  | [], _ :: _ => false
  | h :: hs, n :: ns => h == n && startsWith hs ns

/-- The test `strstr(hay, needle) != NULL` of the C library, on the characters of
the two NUL-terminated strings: `needle` occurs somewhere in `hay`. -/
def strstr : List Nat → List Nat → Bool
  | [], needle => startsWith [] needle
  | h :: hs, needle => startsWith (h :: hs) needle || strstr hs needle

/-- The loop of `GetImageBase` (lines 31-37): the first image whose name passes
`strstr(dyldImageName, imageName.c_str())` sets `imageBase` and ends the loop.
The needle is `imageName.c_str()` read as a C string, that is, `imageName` up
to its first NUL character. -/
def imageBaseLoop (imageName : List Nat) : List Image → Nat → Nat
  | [], imageBase => imageBase
  | img :: rest, imageBase =>
    if strstr img.name (c_str imageName) then img.header
    else imageBaseLoop imageName rest imageBase

/-- The source's `GetImageBase`. -/
def GetImageBase (s : State) (imageName : List Nat) : Nat × State :=
  if s.imageBase ≠ 0 then (s.imageBase, s)
  else
    let imageBase := imageBaseLoop imageName s.images s.imageBase
    (imageBase, { s with imageBase := imageBase, scans := s.scans + 1 })

/-! ## GetFullAddr -/

/-- The load-command loop (lines 84-100): `n` iterations are left, `cmd` is the
cursor, `ranges` the vector being filled. -/
def cmdLoop (abi : ABI) (m : Mem) (slide : Int) : Nat → Nat → List AddrRange → List AddrRange
  | 0, _, ranges => ranges
  | n + 1, cmd, ranges =>
    let ranges1 :=
      if load32 m (cmd + abi.off_cmd) = abi.LC_SEGMENT_64 then
        let start := (((load64 m (cmd + abi.off_vmaddr) : Int) + slide) % 2 ^ 64).toNat
        let end_ := (start + load64 m (cmd + abi.off_vmsize)) % 2 ^ 64
        ranges ++ [{ start := start, end_ := end_ }]
      else ranges
    cmdLoop abi m slide n ((cmd + load32 m (cmd + abi.off_cmdsize)) % 2 ^ 64) ranges1

/-- The image loop (lines 55-101) over dyld's images, filling `ranges`. -/
def imageLoop (abi : ABI) (m : Mem) : List Image → List AddrRange → List AddrRange
  | [], ranges => ranges
  | img :: rest, ranges =>
    if img.header = 0 then imageLoop abi m rest ranges
    else
      let magic := load32 m (img.header + abi.off_magic)
      if magic = abi.MH_MAGIC_64 then
        let cmd := (img.header + abi.sizeof_mach_header_64) % 2 ^ 64
        let ncmds := load32 m (img.header + abi.off_ncmds_64)
        imageLoop abi m rest (cmdLoop abi m img.slide ncmds cmd ranges)
      else if magic = abi.MH_MAGIC then
        let cmd := (img.header + abi.sizeof_mach_header) % 2 ^ 64
        let ncmds := load32 m (img.header + abi.off_ncmds)
        imageLoop abi m rest (cmdLoop abi m img.slide ncmds cmd ranges)
      else imageLoop abi m rest ranges

/-- The source's `GetFullAddr`: the cached vector when it is not empty, else the
result of the image loop, which is stored in the `static`. -/
def GetFullAddr (abi : ABI) (s : State) : List AddrRange × State :=
  if !s.ranges.isEmpty then (s.ranges, s)
  else
    let ranges := imageLoop abi s.mem s.images s.ranges
    (ranges, { s with ranges := ranges, walks := s.walks + 1 })

/-! ## IsValidPointer and the guarded accessors -/

/-- The range loop of `IsValidPointer` (lines 108-113). -/
def rangeLoop (addr : Nat) : List AddrRange → Bool
  | [] => false
  | r :: rest => if addr ≥ r.start && addr < r.end_ then true else rangeLoop addr rest

/-- The source's `IsValidPointer`. -/
def IsValidPointer (abi : ABI) (s : State) (addr : Nat) : Bool × State :=
  let (ranges, s1) := GetFullAddr abi s
  (rangeLoop addr ranges, s1)

/-- The source's `_read`: the flag, the buffer after the call, the state. -/
def _read (abi : ABI) (s : State) (addr : Nat) (buffer : List Nat) (len : Nat) :
    Bool × List Nat × State :=
  let (ok, s1) := IsValidPointer abi s addr
  if !ok then (false, buffer, s1)
  else (true, memcpy buffer (loadBytes s1.mem addr len), s1)

/-- A value type `T` of `Read<T>` / `Write<T>`: `sizeof(T)`, the value `T{}`, and
the object representation of its values (`toBytes`) with the value a
representation stands for (`ofBytes`). -/
structure CType (T : Type) where
  size : Nat
  zero : T
  toBytes : T → List Nat
  ofBytes : List Nat → T
  toBytes_length : ∀ v, (toBytes v).length = size

/-- The source's `Read<T>`. -/
def Read {T : Type} (ct : CType T) (abi : ABI) (s : State) (address : Nat) : T × State :=
  let data := ct.toBytes ct.zero
  let (ok, data1, s1) := _read abi s address data ct.size
  if !ok then (ct.zero, s1) else (ct.ofBytes data1, s1)

/-- The literal `"Invalid Pointer!!"` as characters. -/
def invalidPointer : List Nat := "Invalid Pointer!!".toList.map Char.toNat

/-- How a call that need not return ends: it returns a value, the constructor of
its local `std::vector` throws (`std::length_error` or `std::bad_alloc`), or its
`memcpy` writes past the end of the local buffer, which is undefined behaviour. -/
inductive Outcome (α : Type) where
  | returned : α → Outcome α
  | threw : Outcome α
  | overrun : Outcome α
deriving DecidableEq

/-- The source's `ReadString`; a `std::string` is the list of its characters.
`max_len` is a `size_t`, so the size of the vector is `max_len + 1` modulo
`2 ^ 64`.  `max_size` is the largest size for which the constructor of
`std::vector<char>` returns (the `max_size()` of the vector and the memory the
allocator has); it belongs to the standard library and the process, not to the
source, and is a parameter.  When the vector has fewer than `max_len` bytes, the
`memcpy` inside `_read` overruns it. -/
def ReadString (max_size : Nat) (abi : ABI) (s : State) (address max_len : Nat) :
    Outcome (List Nat) × State :=
  let (ok, s1) := IsValidPointer abi s address
  if !ok then (Outcome.returned invalidPointer, s1)
  else
    let size := (max_len + 1) % 2 ^ 64
    if max_size < size then (Outcome.threw, s1)
    else
      let chars := List.replicate size 0
      let (ok2, chars1, s2) := _read abi s1 address chars max_len
      if !ok2 then (Outcome.returned [], s2)
      else if size < max_len then (Outcome.overrun, s2)
      else (Outcome.returned (c_str chars1), s2)

/-- The source's `Write<T>`. -/
def Write {T : Type} (ct : CType T) (abi : ABI) (s : State) (address : Nat) (value : T) : State :=
  let (ok, s1) := IsValidPointer abi s address
  if !ok then s1
  else { s1 with mem := storeBytes s1.mem address (ct.toBytes value) }

/-- The type `int32_t`: four bytes, little endian, two's complement. -/
def int32 : CType Int where
  size := 4
  zero := 0
  toBytes v :=
    let u := (v % 4294967296).toNat
    [u % 256, u / 256 % 256, u / 65536 % 256, u / 16777216 % 256]
  ofBytes bs :=
    let u := bs.getD 0 0 % 256 + 256 * (bs.getD 1 0 % 256) + 65536 * (bs.getD 2 0 % 256)
      + 16777216 * (bs.getD 3 0 % 256)
    if u < 2147483648 then (u : Int) else (u : Int) - 4294967296
  toBytes_length _ := rfl

/-! ## The address map in the words of the specification -/

/-- Address of load command number `k` of a table whose first command is at
`first`: each next command is `cmdsize` bytes after the previous one.  The sum
is not reduced: every load reduces its address modulo `2 ^ 64`. -/
def specCmdAddr (abi : ABI) (m : Mem) (first : Nat) : Nat → Nat
  | 0 => first
  | k + 1 => specCmdAddr abi m first k + load32 m (specCmdAddr abi m first k + abi.off_cmdsize)

/-- What the load command at `c` contributes: a range when it is tagged
`LC_SEGMENT_64`, nothing otherwise. -/
def specSegment (abi : ABI) (m : Mem) (slide : Int) (c : Nat) : Option AddrRange :=
  if load32 m (c + abi.off_cmd) = abi.LC_SEGMENT_64 then
    some { start := (((load64 m (c + abi.off_vmaddr) : Int) + slide) % 2 ^ 64).toNat
           end_ := ((((load64 m (c + abi.off_vmaddr) : Int) + slide) % 2 ^ 64).toNat
                    + load64 m (c + abi.off_vmsize)) % 2 ^ 64 }
  else none

/-- The ranges of the first `ncmds` commands of the table starting at `first`. -/
def specCommands (abi : ABI) (m : Mem) (slide : Int) (first ncmds : Nat) : List AddrRange :=
  (List.range ncmds).filterMap (fun k => specSegment abi m slide (specCmdAddr abi m first k))

/-- The ranges one image contributes: none for a null header or an unrecognised
magic, else those of its first `ncmds` commands, the first command lying at the
header address plus the fixed header size of its format. -/
def specImage (abi : ABI) (m : Mem) (img : Image) : List AddrRange :=
  if img.header = 0 then []
  else if load32 m (img.header + abi.off_magic) = abi.MH_MAGIC_64 then
    specCommands abi m img.slide (img.header + abi.sizeof_mach_header_64)
      (load32 m (img.header + abi.off_ncmds_64))
  else if load32 m (img.header + abi.off_magic) = abi.MH_MAGIC then
    specCommands abi m img.slide (img.header + abi.sizeof_mach_header)
      (load32 m (img.header + abi.off_ncmds))
  else []

/-- The map of the specification: the images in loader order, each contributing
its ranges. -/
def specMap (abi : ABI) (m : Mem) : List Image → List AddrRange
  | [] => []
  | img :: rest => specImage abi m img ++ specMap abi m rest

/-- A path contains a name as a substring. -/
def Contains (path name : List Nat) : Prop :=
  ∃ pre post : List Nat, path = pre ++ name ++ post

/-! ## Sequences of calls to GetFullAddr -/

/-- What the surroundings decide before a call: the memory contents and dyld's
image list.  The statics of the library persist from call to call. -/
structure World where
  mem : Mem
  images : List Image

/-- How `GetFullAddr` is reached: called directly, or through `IsValidPointer`. -/
inductive Call where
  | direct : Call
  | viaIsValidPointer : Nat → Call

/-- One call in the world `w`: the map `GetFullAddr` returns in it and the state
the call leaves. -/
def callGetFullAddr (abi : ABI) (s : State) (w : World) (c : Call) : List AddrRange × State :=
  match c with
  | Call.direct => GetFullAddr abi { s with mem := w.mem, images := w.images }
  | Call.viaIsValidPointer addr =>
    ((GetFullAddr abi { s with mem := w.mem, images := w.images }).1,
     (IsValidPointer abi { s with mem := w.mem, images := w.images } addr).2)

/-- The maps returned by a sequence of calls, and the final state. -/
def callSequence (abi : ABI) : State → List (World × Call) → List (List AddrRange) × State
  | s, [] => ([], s)
  | s, wc :: rest =>
    let r := callGetFullAddr abi s wc.1 wc.2
    let rs := callSequence abi r.2 rest
    (r.1 :: rs.1, rs.2)

/-! ## Sequences of calls to GetImageBase -/

/-- The addresses returned by a sequence of calls to `GetImageBase`, each made
with its own name in its own world, and the final state. -/
def baseSequence : State → List (World × List Nat) → List Nat × State
  | s, [] => ([], s)
  | s, wn :: rest =>
    let r := GetImageBase { s with mem := wn.1.mem, images := wn.1.images } wn.2
    let rs := baseSequence r.2 rest
    (r.1 :: rs.1, rs.2)

/-! ## The load-command walk with its trace -/

/-- The switch on `header->magic` (lines 58-82) for one image: the address of
the first load command and `ncmds`, or nothing when the image is skipped (null
header, or the `default: continue`). -/
def loadCommands (abi : ABI) (m : Mem) (img : Image) : Option (Nat × Nat) :=
  if img.header = 0 then none
  else if load32 m (img.header + abi.off_magic) = abi.MH_MAGIC_64 then
    some ((img.header + abi.sizeof_mach_header_64) % 2 ^ 64,
          load32 m (img.header + abi.off_ncmds_64))
  else if load32 m (img.header + abi.off_magic) = abi.MH_MAGIC then
    some ((img.header + abi.sizeof_mach_header) % 2 ^ 64,
          load32 m (img.header + abi.off_ncmds))
  else none

/-- The loop `cmdLoop` with a ghost list: `visited` records the value of the
cursor `cmd` at the start of every iteration. -/
def cmdLoopVisits (abi : ABI) (m : Mem) (slide : Int) :
    Nat → Nat → List AddrRange → List Nat → List AddrRange × List Nat
  | 0, _, ranges, visited => (ranges, visited)
  | n + 1, cmd, ranges, visited =>
    let ranges1 :=
      if load32 m (cmd + abi.off_cmd) = abi.LC_SEGMENT_64 then
        let start := (((load64 m (cmd + abi.off_vmaddr) : Int) + slide) % 2 ^ 64).toNat
        let end_ := (start + load64 m (cmd + abi.off_vmsize)) % 2 ^ 64
        ranges ++ [{ start := start, end_ := end_ }]
      else ranges
    cmdLoopVisits abi m slide n ((cmd + load32 m (cmd + abi.off_cmdsize)) % 2 ^ 64) ranges1
      (visited ++ [cmd])

/-- The number of iterations of the command loop for one image: its `ncmds`, or
`0` when the image is skipped. -/
def imageNcmds (abi : ABI) (m : Mem) (img : Image) : Nat :=
  match loadCommands abi m img with
  | none => 0
  | some p => p.2

/-! ## A small process used to instantiate the theorems -/

/-- A 64-bit Mach-O header with two load commands, an `LC_SEGMENT_64` for
`vmaddr = 0x100000000`, `vmsize = 0x4000` and an `LC_SEGMENT`. -/
def demoBytes : List Nat :=
  [0xcf, 0xfa, 0xed, 0xfe] ++ List.replicate 12 0 ++ [2, 0, 0, 0] ++ List.replicate 12 0
  ++ [0x19, 0, 0, 0, 72, 0, 0, 0] ++ List.replicate 16 0 ++ [0, 0, 0, 0, 1, 0, 0, 0]
  ++ [0, 0x40, 0, 0, 0, 0, 0, 0] ++ List.replicate 32 0
  ++ [1, 0, 0, 0, 56, 0, 0, 0]

/-- Memory that is zero except for `demoBytes` at `0x1000`. -/
def demoMem : Mem := storeBytes (fun _ => 0) 0x1000 demoBytes

/-- The image `/A` with its header at `0x1000` and slide `0x5000`. -/
def demoImage : Image := { name := [47, 65], header := 0x1000, slide := 0x5000 }

/-- A process with the one image `demoImage` and empty caches. -/
def demoState : State :=
  { mem := demoMem, images := [demoImage], ranges := [], imageBase := 0, walks := 0, scans := 0 }

/-- The memory `demoMem` with the characters `ab\0cd` at `0x100005000`. -/
def stringMem : Mem := storeBytes demoMem 0x100005000 [97, 98, 0, 99, 100]

/-- The process `demoState` with the memory `stringMem`. -/
def stringState : State := { demoState with mem := stringMem }

/-- The world of `demoState`. -/
def demoWorld : World := { mem := demoMem, images := [demoImage] }

/-- A world in which dyld lists no image. -/
def emptyWorld : World := { mem := demoMem, images := [] }

/-- The image of `demoBytes` with a negative slide: its segment starts at
`0xfffffffffffff000`. -/
def wrapImage : Image := { name := [47, 65], header := 0x1000, slide := -0x100001000 }

/-- The process `demoState` with the image `wrapImage`. -/
def wrapState : State := { demoState with images := [wrapImage] }

/-- The image of `demoBytes` with the slide that puts its segment at
`[0x1000, 0x5000)`, so that the header lies inside the segment. -/
def headerImage : Image := { name := [47, 65], header := 0x1000, slide := -0xfffff000 }

/-- The process `demoState` with the image `headerImage`. -/
def headerState : State := { demoState with images := [headerImage] }

/-- The process `demoState` with the bytes `1, 2, 3, 4` at `0x100008fff`, the last
address of the segment. -/
def boundaryState : State :=
  { demoState with mem := storeBytes demoMem 0x100008fff [1, 2, 3, 4] }

/-- A 64-bit header with `ncmds = 3` whose first load command is an
`LC_SEGMENT_64` with `cmdsize = 0`. -/
def zeroSizeBytes : List Nat :=
  [0xcf, 0xfa, 0xed, 0xfe] ++ List.replicate 12 0 ++ [3, 0, 0, 0] ++ List.replicate 12 0
  ++ [0x19, 0, 0, 0, 0, 0, 0, 0] ++ List.replicate 16 0 ++ [0, 0, 0, 0, 1, 0, 0, 0]
  ++ [0, 0x40, 0, 0, 0, 0, 0, 0]

/-- Memory that is zero except for `zeroSizeBytes` at `0x1000`. -/
def zeroSizeMem : Mem := storeBytes (fun _ => 0) 0x1000 zeroSizeBytes

/-- The process `demoState` with the memory `zeroSizeMem`. -/
def zeroSizeState : State := { demoState with mem := zeroSizeMem }

/-! ## Lemmas -/

theorem rangeLoop_iff (addr : Nat) (ranges : List AddrRange) :
    rangeLoop addr ranges = true ↔ ∃ r ∈ ranges, r.start ≤ addr ∧ addr < r.end_ := by
  induction ranges with
  | nil => simp [rangeLoop]
  | cons r rest ih =>
    by_cases h : r.start ≤ addr ∧ addr < r.end_
    · simp [rangeLoop, h]
    · have h2 : ¬ (r.start ≤ addr ∧ addr < r.end_) := h
      simp only [rangeLoop, ge_iff_le, Bool.and_eq_true, decide_eq_true_eq, List.mem_cons,
        exists_eq_or_imp, if_neg h]
      rw [ih]
      tauto

theorem load8_congr (m : Mem) {a b : Nat} (h : a % 2 ^ 64 = b % 2 ^ 64) :
    load8 m a = load8 m b := by
  unfold load8
  rw [h]

theorem load32_congr (m : Mem) {a b : Nat} (h : a % 2 ^ 64 = b % 2 ^ 64) :
    load32 m a = load32 m b := by
  unfold load32
  rw [load8_congr m h, load8_congr m (a := a + 1) (b := b + 1) (by omega),
    load8_congr m (a := a + 2) (b := b + 2) (by omega),
    load8_congr m (a := a + 3) (b := b + 3) (by omega)]

theorem load64_congr (m : Mem) {a b : Nat} (h : a % 2 ^ 64 = b % 2 ^ 64) :
    load64 m a = load64 m b := by
  unfold load64
  rw [load32_congr m h, load32_congr m (a := a + 4) (b := b + 4) (by omega)]

/-- The command loop sees its cursor only as a 64-bit pointer. -/
theorem cmdLoop_congr (abi : ABI) (m : Mem) (slide : Int) (n : Nat) :
    ∀ (c1 c2 : Nat) (ranges : List AddrRange), c1 % 2 ^ 64 = c2 % 2 ^ 64 →
      cmdLoop abi m slide n c1 ranges = cmdLoop abi m slide n c2 ranges := by
  induction n with
  | zero => intro c1 c2 ranges _; rfl
  | succ n ih =>
    intro c1 c2 ranges h
    have e1 : load32 m (c1 + abi.off_cmd) = load32 m (c2 + abi.off_cmd) :=
      load32_congr m (by omega)
    have e2 : load64 m (c1 + abi.off_vmaddr) = load64 m (c2 + abi.off_vmaddr) :=
      load64_congr m (by omega)
    have e3 : load64 m (c1 + abi.off_vmsize) = load64 m (c2 + abi.off_vmsize) :=
      load64_congr m (by omega)
    have e4 : load32 m (c1 + abi.off_cmdsize) = load32 m (c2 + abi.off_cmdsize) :=
      load32_congr m (by omega)
    simp only [cmdLoop, e1, e2, e3, e4]
    apply ih
    omega

theorem specCmdAddr_succ (abi : ABI) (m : Mem) (first : Nat) (k : Nat) :
    specCmdAddr abi m first (k + 1)
      = specCmdAddr abi m (first + load32 m (first + abi.off_cmdsize)) k := by
  induction k with
  | zero => rfl
  | succ k ih =>
    show specCmdAddr abi m first (k + 1)
        + load32 m (specCmdAddr abi m first (k + 1) + abi.off_cmdsize) = _
    rw [ih]
    rfl

theorem specCommands_succ (abi : ABI) (m : Mem) (slide : Int) (first n : Nat) :
    specCommands abi m slide first (n + 1)
      = (specSegment abi m slide first).toList
        ++ specCommands abi m slide (first + load32 m (first + abi.off_cmdsize)) n := by
  unfold specCommands
  rw [List.range_succ_eq_map, List.filterMap_cons, List.filterMap_map]
  have hfun : ((fun k => specSegment abi m slide (specCmdAddr abi m first k)) ∘ Nat.succ)
      = fun k => specSegment abi m slide
          (specCmdAddr abi m (first + load32 m (first + abi.off_cmdsize)) k) := by
    funext k
    simp only [Function.comp, Nat.succ_eq_add_one, specCmdAddr_succ]
  rw [hfun]
  have h0 : specCmdAddr abi m first 0 = first := rfl
  rw [h0]
  cases specSegment abi m slide first <;> rfl

/-- The command loop appends the ranges of the specification to the vector. -/
theorem cmdLoop_eq (abi : ABI) (m : Mem) (slide : Int) (n : Nat) :
    ∀ (cmd : Nat) (ranges : List AddrRange),
      cmdLoop abi m slide n cmd ranges = ranges ++ specCommands abi m slide cmd n := by
  induction n with
  | zero => intro cmd ranges; simp [cmdLoop, specCommands]
  | succ n ih =>
    intro cmd ranges
    rw [specCommands_succ]
    simp only [cmdLoop]
    rw [cmdLoop_congr abi m slide n _ (cmd + load32 m (cmd + abi.off_cmdsize)) _ (by omega), ih]
    unfold specSegment
    by_cases h : load32 m (cmd + abi.off_cmd) = abi.LC_SEGMENT_64
    · simp [h]
    · simp [h]

/-- The image loop appends the map of the specification to the vector. -/
theorem imageLoop_eq (abi : ABI) (m : Mem) (images : List Image) :
    ∀ ranges : List AddrRange,
      imageLoop abi m images ranges = ranges ++ specMap abi m images := by
  induction images with
  | nil => intro ranges; simp [imageLoop, specMap]
  | cons img rest ih =>
    intro ranges
    simp only [imageLoop, specMap, specImage]
    by_cases h0 : img.header = 0
    · simp [h0, ih]
    · by_cases h64 : load32 m (img.header + abi.off_magic) = abi.MH_MAGIC_64
      · have hc := cmdLoop_congr abi m img.slide (load32 m (img.header + abi.off_ncmds_64))
          ((img.header + abi.sizeof_mach_header_64) % 2 ^ 64)
          (img.header + abi.sizeof_mach_header_64) ranges (by omega)
        simp only [h0, h64, if_true, if_false, ih, hc, cmdLoop_eq, List.append_assoc]
      · by_cases h32 : load32 m (img.header + abi.off_magic) = abi.MH_MAGIC
        · have hne : ¬ abi.MH_MAGIC = abi.MH_MAGIC_64 := by rw [← h32]; exact h64
          have hc := cmdLoop_congr abi m img.slide (load32 m (img.header + abi.off_ncmds))
            ((img.header + abi.sizeof_mach_header) % 2 ^ 64)
            (img.header + abi.sizeof_mach_header) ranges (by omega)
          simp only [h0, h32, hne, if_true, if_false, ih, hc, cmdLoop_eq, List.append_assoc]
        · simp [h0, h64, h32, ih]

theorem GetFullAddr_of_empty (abi : ABI) (s : State) (h : s.ranges = []) :
    GetFullAddr abi s
      = (specMap abi s.mem s.images,
         { s with ranges := specMap abi s.mem s.images, walks := s.walks + 1 }) := by
  simp [GetFullAddr, h, imageLoop_eq]

theorem GetFullAddr_of_nonempty (abi : ABI) (s : State) (h : s.ranges ≠ []) :
    GetFullAddr abi s = (s.ranges, s) := by
  simp [GetFullAddr, h]

theorem GetFullAddr_ranges (abi : ABI) (s : State) :
    (GetFullAddr abi s).2.ranges = (GetFullAddr abi s).1 := by
  by_cases h : s.ranges = []
  · rw [GetFullAddr_of_empty abi s h]
  · rw [GetFullAddr_of_nonempty abi s h]

theorem GetFullAddr_mem (abi : ABI) (s : State) : (GetFullAddr abi s).2.mem = s.mem := by
  by_cases h : s.ranges = []
  · rw [GetFullAddr_of_empty abi s h]
  · rw [GetFullAddr_of_nonempty abi s h]

theorem GetFullAddr_images (abi : ABI) (s : State) :
    (GetFullAddr abi s).2.images = s.images := by
  by_cases h : s.ranges = []
  · rw [GetFullAddr_of_empty abi s h]
  · rw [GetFullAddr_of_nonempty abi s h]

theorem GetFullAddr_imageBase (abi : ABI) (s : State) :
    (GetFullAddr abi s).2.imageBase = s.imageBase := by
  by_cases h : s.ranges = []
  · rw [GetFullAddr_of_empty abi s h]
  · rw [GetFullAddr_of_nonempty abi s h]

theorem IsValidPointer_eq (abi : ABI) (s : State) (a : Nat) :
    IsValidPointer abi s a = (rangeLoop a (GetFullAddr abi s).1, (GetFullAddr abi s).2) := rfl

/-- An address outside every range of the map is rejected. -/
theorem IsValidPointer_of_outside (abi : ABI) (s : State) (a : Nat)
    (h : ∀ r ∈ (GetFullAddr abi s).1, ¬ (r.start ≤ a ∧ a < r.end_)) :
    (IsValidPointer abi s a).1 = false := by
  cases hv : (IsValidPointer abi s a).1 with
  | false => rfl
  | true =>
    obtain ⟨r, hr, hin⟩ := (rangeLoop_iff a _).mp hv
    exact absurd hin (h r hr)

theorem Read_of_invalid {T : Type} (ct : CType T) (abi : ABI) (s : State) (a : Nat)
    (h : (IsValidPointer abi s a).1 = false) :
    Read ct abi s a = (ct.zero, (GetFullAddr abi s).2) := by
  rw [IsValidPointer_eq] at h
  simp only [Read, _read, IsValidPointer_eq] at h ⊢
  simp [h]

theorem Write_of_invalid {T : Type} (ct : CType T) (abi : ABI) (s : State) (a : Nat) (v : T)
    (h : (IsValidPointer abi s a).1 = false) :
    Write ct abi s a v = (GetFullAddr abi s).2 := by
  simp only [Write, IsValidPointer_eq] at h ⊢
  simp [h]

theorem ReadString_of_invalid (max_size : Nat) (abi : ABI) (s : State) (a n : Nat)
    (h : (IsValidPointer abi s a).1 = false) :
    ReadString max_size abi s a n
      = (Outcome.returned invalidPointer, (GetFullAddr abi s).2) := by
  simp only [ReadString, IsValidPointer_eq] at h ⊢
  simp [h]

/-! ### Loads and stores -/

theorem load8_store8_same (m : Mem) (a b : Nat) : load8 (store8 m a b) a = b % 256 := by
  simp [load8, store8]

theorem load8_store8_other (m : Mem) (a b x : Nat) (h : a % 2 ^ 64 ≠ x % 2 ^ 64) :
    load8 (store8 m a b) x = load8 m x := by
  unfold load8 store8
  rw [if_neg (fun e => h e.symm)]

/-- A store of consecutive bytes leaves every byte it does not reach as it was. -/
theorem load8_storeBytes_other (bs : List Nat) :
    ∀ (m : Mem) (a x : Nat), (∀ i, i < bs.length → (a + i) % 2 ^ 64 ≠ x % 2 ^ 64) →
      load8 (storeBytes m a bs) x = load8 m x := by
  induction bs with
  | nil => intro m a x _; rfl
  | cons b bs ih =>
    intro m a x h
    show load8 (storeBytes (store8 m a b) (a + 1) bs) x = _
    rw [ih (store8 m a b) (a + 1) x]
    · exact load8_store8_other m a b x (by simpa using h 0 (by simp))
    · intro i hi
      have := h (i + 1) (by simpa using hi)
      rwa [show a + 1 + i = a + (i + 1) by omega]

/-- The bytes just stored are the bytes loaded. -/
theorem loadBytes_storeBytes (bs : List Nat) :
    ∀ (m : Mem) (a : Nat), bs.length ≤ 2 ^ 64 →
      loadBytes (storeBytes m a bs) a bs.length = bs.map (fun b => b % 256) := by
  induction bs with
  | nil => intro m a _; rfl
  | cons b bs ih =>
    intro m a h
    have hlen : bs.length + 1 ≤ 2 ^ 64 := by simpa using h
    show load8 (storeBytes (store8 m a b) (a + 1) bs) a
        :: loadBytes (storeBytes (store8 m a b) (a + 1) bs) (a + 1) bs.length = _
    rw [ih (store8 m a b) (a + 1) (by omega),
      load8_storeBytes_other bs (store8 m a b) (a + 1) a (by intro i hi; omega),
      load8_store8_same]
    rfl

theorem loadBytes_length (m : Mem) (n : Nat) : ∀ a, (loadBytes m a n).length = n := by
  induction n with
  | zero => intro a; rfl
  | succ n ih => intro a; simp [loadBytes, ih]

theorem memcpy_full (buffer bytes : List Nat) (h : buffer.length = bytes.length) :
    memcpy buffer bytes = bytes := by
  simp [memcpy, ← h]

/-! ### The accessors at a valid address -/

/-- Once `IsValidPointer` has accepted an address the cached map is not empty. -/
theorem ranges_ne_nil_of_valid (abi : ABI) (s : State) (a : Nat)
    (h : (IsValidPointer abi s a).1 = true) : (GetFullAddr abi s).2.ranges ≠ [] := by
  rw [GetFullAddr_ranges]
  obtain ⟨r, hr, _⟩ := (rangeLoop_iff a _).mp h
  exact List.ne_nil_of_mem hr

/-- With a non-empty cached map `IsValidPointer` scans that map and changes
nothing. -/
theorem IsValidPointer_of_cached (abi : ABI) (s : State) (b : Nat) (h : s.ranges ≠ []) :
    IsValidPointer abi s b = (rangeLoop b s.ranges, s) := by
  rw [IsValidPointer_eq, GetFullAddr_of_nonempty abi s h]

theorem IsValidPointer_of_valid (abi : ABI) (s : State) (a : Nat)
    (h : (IsValidPointer abi s a).1 = true) :
    IsValidPointer abi s a = (true, (GetFullAddr abi s).2) := by
  rw [IsValidPointer_eq] at h ⊢
  simp only at h
  rw [h]

/-- A second check of an accepted address accepts it again. -/
theorem IsValidPointer_again (abi : ABI) (s : State) (a : Nat)
    (h : (IsValidPointer abi s a).1 = true) :
    IsValidPointer abi (GetFullAddr abi s).2 a = (true, (GetFullAddr abi s).2) := by
  rw [IsValidPointer_of_cached abi _ a (ranges_ne_nil_of_valid abi s a h), GetFullAddr_ranges]
  rw [IsValidPointer_eq] at h
  simp only at h
  rw [h]

theorem Read_of_valid {T : Type} (ct : CType T) (abi : ABI) (s : State) (a : Nat)
    (h : (IsValidPointer abi s a).1 = true) :
    Read ct abi s a = (ct.ofBytes (loadBytes s.mem a ct.size), (GetFullAddr abi s).2) := by
  rw [IsValidPointer_eq] at h
  simp only [Read, _read, IsValidPointer_eq] at h ⊢
  simp only [h, Bool.not_true, Bool.false_eq_true, if_false, GetFullAddr_mem]
  rw [memcpy_full _ _ (by rw [ct.toBytes_length, loadBytes_length])]

theorem Write_of_valid {T : Type} (ct : CType T) (abi : ABI) (s : State) (a : Nat) (v : T)
    (h : (IsValidPointer abi s a).1 = true) :
    Write ct abi s a v
      = { (GetFullAddr abi s).2 with mem := storeBytes s.mem a (ct.toBytes v) } := by
  rw [IsValidPointer_eq] at h
  simp only [Write, IsValidPointer_eq] at h ⊢
  simp only [h, Bool.not_true, Bool.false_eq_true, if_false, GetFullAddr_mem]

theorem takeWhile_append_zeros (l : List Nat) (k : Nat) :
    (l ++ List.replicate k 0).takeWhile (fun c => c != 0) = l.takeWhile (fun c => c != 0) := by
  induction l with
  | nil => cases k <;> simp [List.replicate, List.takeWhile]
  | cons x l ih =>
    by_cases hx : x = 0
    · simp [List.takeWhile, hx]
    · simp [List.takeWhile, hx, ih]

/-- At a valid address `ReadString` ends in one of three ways: the constructor
throws, the copy overruns the buffer, or the characters before the first NUL
among the `n` bytes at `a` are returned. -/
theorem ReadString_of_valid_cases (max_size : Nat) (abi : ABI) (s : State) (a n : Nat)
    (h : (IsValidPointer abi s a).1 = true) :
    ReadString max_size abi s a n
      = (if max_size < (n + 1) % 2 ^ 64 then Outcome.threw
         else if (n + 1) % 2 ^ 64 < n then Outcome.overrun
         else Outcome.returned (c_str (loadBytes s.mem a n)), (GetFullAddr abi s).2) := by
  simp only [ReadString, _read, IsValidPointer_of_valid abi s a h, IsValidPointer_again abi s a h,
    Bool.not_true, Bool.false_eq_true, if_false, GetFullAddr_mem]
  by_cases h1 : max_size < (n + 1) % 2 ^ 64
  · simp only [h1, if_true]
  · by_cases h2 : (n + 1) % 2 ^ 64 < n
    · simp only [h1, h2, if_true, if_false]
    · simp only [h1, h2, if_false]
      simp only [memcpy, List.drop_replicate, c_str, takeWhile_append_zeros]

/-- When the vector of `n + 1` bytes can be constructed, `ReadString` at a valid
address returns the characters before the first NUL among the `n` bytes. -/
theorem ReadString_of_valid (max_size : Nat) (abi : ABI) (s : State) (a n : Nat)
    (h : (IsValidPointer abi s a).1 = true) (hn : n + 1 ≤ max_size) (hmax : max_size < 2 ^ 64) :
    ReadString max_size abi s a n
      = (Outcome.returned (c_str (loadBytes s.mem a n)), (GetFullAddr abi s).2) := by
  rw [ReadString_of_valid_cases max_size abi s a n h]
  have hmod : (n + 1) % 2 ^ 64 = n + 1 := Nat.mod_eq_of_lt (by omega)
  rw [hmod, if_neg (by omega), if_neg (by omega)]

/-- Whatever `ReadString` returns at a valid address is the characters before
the first NUL among the `n` bytes. -/
theorem ReadString_returned_of_valid (max_size : Nat) (abi : ABI) (s : State) (a n : Nat)
    (h : (IsValidPointer abi s a).1 = true) (str : List Nat)
    (hr : (ReadString max_size abi s a n).1 = Outcome.returned str) :
    str = c_str (loadBytes s.mem a n) := by
  rw [ReadString_of_valid_cases max_size abi s a n h] at hr
  simp only at hr
  split at hr
  · cases hr
  · split at hr
    · cases hr
    · exact (Outcome.returned.inj hr).symm

/-- The characters before the first NUL among the `n` bytes at `a`. -/
theorem c_str_loadBytes (m : Mem) (n : Nat) :
    ∀ a, ∃ k, k ≤ n
      ∧ c_str (loadBytes m a n) = (List.range k).map (fun i => load8 m (a + i))
      ∧ (∀ i, i < k → load8 m (a + i) ≠ 0)
      ∧ (k < n → load8 m (a + k) = 0) := by
  induction n with
  | zero => intro a; exact ⟨0, le_refl _, rfl, by intro i hi; omega, by intro h; omega⟩
  | succ n ih =>
    intro a
    by_cases h0 : load8 m a = 0
    · refine ⟨0, by omega, ?_, by intro i hi; omega, fun _ => h0⟩
      simp [c_str, loadBytes, List.takeWhile, h0]
    · obtain ⟨k, hk, heq, hnz, hz⟩ := ih (a + 1)
      refine ⟨k + 1, by omega, ?_, ?_, ?_⟩
      · have hb : (load8 m a != 0) = true := by simp [h0]
        have : c_str (loadBytes m a (n + 1)) = load8 m a :: c_str (loadBytes m (a + 1) n) := by
          simp only [c_str, loadBytes, List.takeWhile, hb]
        rw [this, heq, List.range_succ_eq_map, List.map_cons, List.map_map]
        congr 1
        apply List.map_congr_left
        intro i _
        show load8 m (a + 1 + i) = load8 m (a + (i + 1))
        rw [show a + 1 + i = a + (i + 1) by omega]
      · intro i hi
        cases i with
        | zero => exact h0
        | succ j =>
          have := hnz j (by omega)
          rwa [show a + 1 + j = a + (j + 1) by omega] at this
      · intro hlt
        have := hz (by omega)
        rwa [show a + 1 + k = a + (k + 1) by omega] at this

theorem int32_roundtrip (v : Int) (h1 : -2147483648 ≤ v) (h2 : v < 2147483648) :
    int32.ofBytes ((int32.toBytes v).map (fun b => b % 256)) = v := by
  simp only [int32, List.map, List.getD_cons_zero, List.getD_cons_succ, Nat.mod_mod]
  split <;> omega

/-! ### GetImageBase -/

theorem startsWith_iff (hay : List Nat) :
    ∀ needle, startsWith hay needle = true ↔ ∃ post, hay = needle ++ post := by
  induction hay with
  | nil =>
    intro needle
    cases needle with
    | nil => simp [startsWith]
    | cons n ns => simp [startsWith]
  | cons h hs ih =>
    intro needle
    cases needle with
    | nil => simp [startsWith]
    | cons n ns =>
      simp only [startsWith, Bool.and_eq_true, beq_iff_eq, ih ns, List.cons_append,
        List.cons.injEq]
      constructor
      · rintro ⟨rfl, post, rfl⟩
        exact ⟨post, rfl, rfl⟩
      · rintro ⟨post, rfl, rfl⟩
        exact ⟨rfl, post, rfl⟩

/-- The model of `strstr` finds the needle exactly when the haystack contains it. -/
theorem strstr_iff (hay : List Nat) :
    ∀ needle, strstr hay needle = true ↔ Contains hay needle := by
  induction hay with
  | nil =>
    intro needle
    simp only [strstr, startsWith_iff, Contains]
    constructor
    · rintro ⟨post, h⟩
      exact ⟨[], post, by simpa using h⟩
    · rintro ⟨pre, post, h⟩
      have h1 : pre ++ needle = [] ∧ post = [] := by
        simpa using List.append_eq_nil.mp h.symm
      have h2 : pre = [] ∧ needle = [] := by simpa using h1.1
      exact ⟨[], by simp [h2.2]⟩
  | cons x hs ih =>
    intro needle
    simp only [strstr, Bool.or_eq_true, startsWith_iff, ih needle, Contains]
    constructor
    · rintro (⟨post, h⟩ | ⟨pre, post, h⟩)
      · exact ⟨[], post, by simpa using h⟩
      · exact ⟨x :: pre, post, by simp [h]⟩
    · rintro ⟨pre, post, h⟩
      cases pre with
      | nil => exact Or.inl ⟨post, by simpa using h⟩
      | cons y pre =>
        simp only [List.cons_append, List.cons.injEq] at h
        exact Or.inr ⟨pre, post, h.2⟩

theorem imageBaseLoop_no_match (imageName : List Nat) (images : List Image) (b : Nat)
    (h : ∀ img ∈ images, ¬ Contains img.name (c_str imageName)) :
    imageBaseLoop imageName images b = b := by
  induction images with
  | nil => rfl
  | cons img rest ih =>
    have h1 : ¬ strstr img.name (c_str imageName) = true := fun e =>
      h img (List.mem_cons_self _ _) ((strstr_iff _ _).mp e)
    simp only [imageBaseLoop, h1, if_false]
    exact ih (fun x hx => h x (List.mem_cons_of_mem _ hx))

theorem imageBaseLoop_first_match (imageName : List Nat) (l1 : List Image) (img : Image)
    (l2 : List Image) (b : Nat)
    (h1 : ∀ x ∈ l1, ¬ Contains x.name (c_str imageName))
    (h2 : Contains img.name (c_str imageName)) :
    imageBaseLoop imageName (l1 ++ img :: l2) b = img.header := by
  induction l1 with
  | nil =>
    have : strstr img.name (c_str imageName) = true := (strstr_iff _ _).mpr h2
    simp [imageBaseLoop, this]
  | cons y l1 ih =>
    have hy : ¬ strstr y.name (c_str imageName) = true := fun e =>
      h1 y (List.mem_cons_self _ _) ((strstr_iff _ _).mp e)
    simp only [List.cons_append, imageBaseLoop, hy, if_false]
    exact ih (fun x hx => h1 x (List.mem_cons_of_mem _ hx))

theorem GetImageBase_of_zero (s : State) (imageName : List Nat) (h : s.imageBase = 0) :
    (GetImageBase s imageName).1 = imageBaseLoop imageName s.images 0 := by
  simp [GetImageBase, h]

/-! ### Call sequences and skipped images -/

theorem callGetFullAddr_snd (abi : ABI) (s : State) (w : World) (c : Call) :
    (callGetFullAddr abi s w c).2
      = (GetFullAddr abi { s with mem := w.mem, images := w.images }).2 := by
  cases c <;> rfl

theorem callGetFullAddr_fst (abi : ABI) (s : State) (w : World) (c : Call) :
    (callGetFullAddr abi s w c).1
      = (GetFullAddr abi { s with mem := w.mem, images := w.images }).1 := by
  cases c <;> rfl

/-- With a non-empty cached map every call of a sequence returns that map and
no call walks the images. -/
theorem callSequence_of_cached (abi : ABI) (calls : List (World × Call)) :
    ∀ s : State, s.ranges ≠ [] →
      (∀ m ∈ (callSequence abi s calls).1, m = s.ranges)
        ∧ (callSequence abi s calls).2.walks = s.walks
        ∧ (callSequence abi s calls).2.ranges = s.ranges := by
  induction calls with
  | nil => intro s _; simp [callSequence]
  | cons wc rest ih =>
    intro s h
    have hne : ({ s with mem := wc.1.mem, images := wc.1.images } : State).ranges ≠ [] := h
    have h1 : (callGetFullAddr abi s wc.1 wc.2).1 = s.ranges := by
      rw [callGetFullAddr_fst, GetFullAddr_of_nonempty abi _ hne]
    have h2 : (callGetFullAddr abi s wc.1 wc.2).2
        = { s with mem := wc.1.mem, images := wc.1.images } := by
      rw [callGetFullAddr_snd, GetFullAddr_of_nonempty abi _ hne]
    obtain ⟨ih1, ih2, ih3⟩ := ih { s with mem := wc.1.mem, images := wc.1.images } hne
    simp only [callSequence, h1, h2, List.mem_cons, forall_eq_or_imp, true_and]
    exact ⟨ih1, ih2, ih3⟩

theorem specMap_append (abi : ABI) (m : Mem) (l1 l2 : List Image) :
    specMap abi m (l1 ++ l2) = specMap abi m l1 ++ specMap abi m l2 := by
  induction l1 with
  | nil => rfl
  | cons x l1 ih => simp [specMap, ih]

/-! ### The module-base cache -/

theorem GetImageBase_of_nonzero (s : State) (name : List Nat) (h : s.imageBase ≠ 0) :
    GetImageBase s name = (s.imageBase, s) := by
  simp [GetImageBase, h]

theorem GetImageBase_imageBase (s : State) (name : List Nat) :
    (GetImageBase s name).2.imageBase = (GetImageBase s name).1 := by
  by_cases h : s.imageBase = 0
  · simp [GetImageBase, h]
  · rw [GetImageBase_of_nonzero s name h]

theorem GetImageBase_scans_of_zero (s : State) (name : List Nat) (h : s.imageBase = 0) :
    (GetImageBase s name).2.scans = s.scans + 1 := by
  simp [GetImageBase, h]

/-- With a non-zero cached base every call of a sequence returns it and no call
scans the image list. -/
theorem baseSequence_of_cached (calls : List (World × List Nat)) :
    ∀ s : State, s.imageBase ≠ 0 →
      (∀ b ∈ (baseSequence s calls).1, b = s.imageBase)
        ∧ (baseSequence s calls).2.scans = s.scans
        ∧ (baseSequence s calls).2.imageBase = s.imageBase := by
  induction calls with
  | nil => intro s _; simp [baseSequence]
  | cons wn rest ih =>
    intro s h
    have hne : ({ s with mem := wn.1.mem, images := wn.1.images } : State).imageBase ≠ 0 := h
    obtain ⟨ih1, ih2, ih3⟩ := ih { s with mem := wn.1.mem, images := wn.1.images } hne
    simp only [baseSequence, GetImageBase_of_nonzero _ wn.2 hne, List.mem_cons,
      forall_eq_or_imp, true_and]
    exact ⟨ih1, ih2, ih3⟩

/-! ### The ranges of the map -/

theorem load8_lt (m : Mem) (a : Nat) : load8 m a < 256 := by
  unfold load8
  omega

theorem load32_lt (m : Mem) (a : Nat) : load32 m a < 4294967296 := by
  have h0 := load8_lt m a
  have h1 := load8_lt m (a + 1)
  have h2 := load8_lt m (a + 2)
  have h3 := load8_lt m (a + 3)
  unfold load32
  omega

theorem load64_lt (m : Mem) (a : Nat) : load64 m a < 18446744073709551616 := by
  have h0 := load32_lt m a
  have h1 := load32_lt m (a + 4)
  unfold load64
  omega

theorem mem_specCommands (abi : ABI) (m : Mem) (slide : Int) (first n : Nat) (r : AddrRange)
    (h : r ∈ specCommands abi m slide first n) :
    ∃ c, specSegment abi m slide c = some r := by
  unfold specCommands at h
  obtain ⟨k, _, hk⟩ := List.mem_filterMap.mp h
  exact ⟨_, hk⟩

theorem mem_specImage (abi : ABI) (m : Mem) (img : Image) (r : AddrRange)
    (h : r ∈ specImage abi m img) :
    ∃ c, specSegment abi m img.slide c = some r := by
  unfold specImage at h
  split at h
  · simp at h
  · split at h
    · exact mem_specCommands abi m _ _ _ r h
    · split at h
      · exact mem_specCommands abi m _ _ _ r h
      · simp at h

/-- Every range of the map is the range of a segment command of some image. -/
theorem mem_specMap (abi : ABI) (m : Mem) (images : List Image) (r : AddrRange)
    (h : r ∈ specMap abi m images) :
    ∃ img ∈ images, ∃ c, specSegment abi m img.slide c = some r := by
  induction images with
  | nil => simp [specMap] at h
  | cons img rest ih =>
    simp only [specMap, List.mem_append] at h
    rcases h with h | h
    · exact ⟨img, List.mem_cons_self _ _, mem_specImage abi m img r h⟩
    · obtain ⟨x, hx, hc⟩ := ih h
      exact ⟨x, List.mem_cons_of_mem _ hx, hc⟩

theorem specSegment_some (abi : ABI) (m : Mem) (slide : Int) (c : Nat) (r : AddrRange)
    (h : specSegment abi m slide c = some r) :
    load32 m (c + abi.off_cmd) = abi.LC_SEGMENT_64
      ∧ r.start = (((load64 m (c + abi.off_vmaddr) : Int) + slide) % 2 ^ 64).toNat
      ∧ r.end_ = (r.start + load64 m (c + abi.off_vmsize)) % 2 ^ 64 := by
  unfold specSegment at h
  split at h
  · rename_i htag
    have hr := (Option.some.inj h).symm
    subst hr
    exact ⟨htag, rfl, rfl⟩
  · simp at h

/-! ### Bytes read and written -/

theorem loadBytes_eq_map (m : Mem) (n : Nat) :
    ∀ a, loadBytes m a n = (List.range n).map (fun i => load8 m (a + i)) := by
  induction n with
  | zero => intro a; rfl
  | succ n ih =>
    intro a
    rw [List.range_succ_eq_map, List.map_cons, List.map_map]
    show load8 m a :: loadBytes m (a + 1) n = _
    rw [ih (a + 1)]
    congr 1
    apply List.map_congr_left
    intro i _
    show load8 m (a + 1 + i) = load8 m (a + (i + 1))
    rw [show a + 1 + i = a + (i + 1) by omega]

/-- A store of consecutive bytes leaves the store unchanged at every address it
does not reach. -/
theorem storeBytes_other (bs : List Nat) :
    ∀ (m : Mem) (a x : Nat), (∀ i, i < bs.length → x ≠ (a + i) % 2 ^ 64) →
      storeBytes m a bs x = m x := by
  induction bs with
  | nil => intro m a x _; rfl
  | cons b bs ih =>
    intro m a x h
    show storeBytes (store8 m a b) (a + 1) bs x = m x
    rw [ih (store8 m a b) (a + 1) x]
    · have h0 : x ≠ a % 2 ^ 64 := by simpa using h 0 (by simp)
      unfold store8
      rw [if_neg h0]
    · intro i hi
      have := h (i + 1) (by simpa using hi)
      rwa [show a + 1 + i = a + (i + 1) by omega]

/-- A store of consecutive bytes puts byte number `i` at address `a + i`. -/
theorem storeBytes_at (bs : List Nat) :
    ∀ (m : Mem) (a i : Nat), bs.length ≤ 2 ^ 64 → i < bs.length →
      storeBytes m a bs ((a + i) % 2 ^ 64) = bs.getD i 0 % 256 := by
  induction bs with
  | nil => intro m a i _ hi; simp at hi
  | cons b bs ih =>
    intro m a i hlen hi
    have hlen2 : bs.length + 1 ≤ 2 ^ 64 := by simpa using hlen
    show storeBytes (store8 m a b) (a + 1) bs ((a + i) % 2 ^ 64) = _
    cases i with
    | zero =>
      rw [storeBytes_other bs (store8 m a b) (a + 1) ((a + 0) % 2 ^ 64)
        (by intro j hj; omega)]
      simp [store8]
    | succ j =>
      have hj : j < bs.length := by simpa using hi
      rw [show a + (j + 1) = a + 1 + j by omega, ih (store8 m a b) (a + 1) j (by omega) hj]
      simp

/-! ### The load-command walk -/

/-- The ghost list does not change what the loop computes. -/
theorem cmdLoopVisits_fst (abi : ABI) (m : Mem) (slide : Int) (n : Nat) :
    ∀ (cmd : Nat) (ranges : List AddrRange) (visited : List Nat),
      (cmdLoopVisits abi m slide n cmd ranges visited).1 = cmdLoop abi m slide n cmd ranges := by
  induction n with
  | zero => intro cmd ranges visited; rfl
  | succ n ih =>
    intro cmd ranges visited
    simp only [cmdLoopVisits, cmdLoop]
    exact ih _ _ _

theorem cmdLoopVisits_snd (abi : ABI) (m : Mem) (slide : Int) (n : Nat) :
    ∀ (cmd : Nat) (ranges : List AddrRange) (visited : List Nat),
      (cmdLoopVisits abi m slide n cmd ranges visited).2
        = visited ++ (cmdLoopVisits abi m slide n cmd [] []).2 := by
  induction n with
  | zero => intro cmd ranges visited; simp [cmdLoopVisits]
  | succ n ih =>
    intro cmd ranges visited
    simp only [cmdLoopVisits]
    rw [ih _ _ (visited ++ [cmd]), ih _ _ ([] ++ [cmd])]
    simp

theorem cmdLoopVisits_length (abi : ABI) (m : Mem) (slide : Int) (n : Nat) :
    ∀ (cmd : Nat) (ranges : List AddrRange) (visited : List Nat),
      (cmdLoopVisits abi m slide n cmd ranges visited).2.length = visited.length + n := by
  induction n with
  | zero => intro cmd ranges visited; rfl
  | succ n ih =>
    intro cmd ranges visited
    simp only [cmdLoopVisits]
    rw [ih]
    simp
    omega

/-- With `cmdsize = 0` the cursor does not move: every iteration visits the same
command. -/
theorem cmdLoopVisits_zero_size (abi : ABI) (m : Mem) (slide : Int) (cmd : Nat)
    (hcmd : cmd < 2 ^ 64) (hsize : load32 m (cmd + abi.off_cmdsize) = 0) (n : Nat) :
    ∀ (ranges : List AddrRange) (visited : List Nat),
      (cmdLoopVisits abi m slide n cmd ranges visited).2 = visited ++ List.replicate n cmd := by
  induction n with
  | zero => intro ranges visited; simp [cmdLoopVisits]
  | succ n ih =>
    intro ranges visited
    simp only [cmdLoopVisits, hsize, Nat.add_zero]
    rw [Nat.mod_eq_of_lt hcmd, ih]
    simp [List.replicate_succ]

/-- When no visited command is tagged `LC_SEGMENT_64` the loop appends nothing. -/
theorem cmdLoop_no_segment (abi : ABI) (m : Mem) (slide : Int) (n : Nat) :
    ∀ (cmd : Nat) (ranges : List AddrRange),
      (∀ c ∈ (cmdLoopVisits abi m slide n cmd [] []).2,
          load32 m (c + abi.off_cmd) ≠ abi.LC_SEGMENT_64) →
      cmdLoop abi m slide n cmd ranges = ranges := by
  induction n with
  | zero => intro cmd ranges _; rfl
  | succ n ih =>
    intro cmd ranges h
    have hv : (cmdLoopVisits abi m slide (n + 1) cmd [] []).2
        = [cmd] ++ (cmdLoopVisits abi m slide n
            ((cmd + load32 m (cmd + abi.off_cmdsize)) % 2 ^ 64) [] []).2 := by
      simp only [cmdLoopVisits]
      rw [cmdLoopVisits_snd]
      rfl
    rw [hv] at h
    have h0 : load32 m (cmd + abi.off_cmd) ≠ abi.LC_SEGMENT_64 := h cmd (by simp)
    simp only [cmdLoop, h0, if_false]
    exact ih _ _ (fun c hc => h c (List.mem_append_right _ hc))

theorem specCommands_length_le (abi : ABI) (m : Mem) (slide : Int) (first n : Nat) :
    (specCommands abi m slide first n).length ≤ n := by
  unfold specCommands
  calc (List.filterMap _ (List.range n)).length ≤ (List.range n).length :=
        List.length_filterMap_le _ _
    _ = n := List.length_range n

/-- What the image loop does with one image: the command loop on the table the
switch selects, or nothing. -/
theorem imageLoop_single (abi : ABI) (m : Mem) (img : Image) (ranges : List AddrRange) :
    imageLoop abi m [img] ranges
      = match loadCommands abi m img with
        | none => ranges
        | some p => cmdLoop abi m img.slide p.2 p.1 ranges := by
  unfold loadCommands
  simp only [imageLoop]
  by_cases h0 : img.header = 0
  · simp [h0]
  · by_cases h64 : load32 m (img.header + abi.off_magic) = abi.MH_MAGIC_64
    · simp [h0, h64]
    · by_cases h32 : load32 m (img.header + abi.off_magic) = abi.MH_MAGIC
      · have hne : ¬ abi.MH_MAGIC = abi.MH_MAGIC_64 := by rw [← h32]; exact h64
        simp [h0, h32, hne]
      · simp [h0, h64, h32]

theorem imageLoop_single_eq (abi : ABI) (m : Mem) (img : Image) (ranges : List AddrRange) :
    imageLoop abi m [img] ranges = ranges ++ specImage abi m img := by
  rw [imageLoop_eq]
  simp [specMap]

theorem specImage_length_le (abi : ABI) (m : Mem) (img : Image) :
    (specImage abi m img).length ≤ imageNcmds abi m img := by
  unfold imageNcmds loadCommands specImage
  by_cases h0 : img.header = 0
  · simp [h0]
  · by_cases h64 : load32 m (img.header + abi.off_magic) = abi.MH_MAGIC_64
    · simp only [h0, h64, if_true, if_false]
      exact specCommands_length_le _ _ _ _ _
    · by_cases h32 : load32 m (img.header + abi.off_magic) = abi.MH_MAGIC
      · have hne : ¬ abi.MH_MAGIC = abi.MH_MAGIC_64 := by rw [← h32]; exact h64
        simp only [h0, h32, hne, if_true, if_false]
        exact specCommands_length_le _ _ _ _ _
      · simp [h0, h64, h32]

theorem specMap_length_le (abi : ABI) (m : Mem) (images : List Image) :
    (specMap abi m images).length ≤ (images.map (imageNcmds abi m)).sum := by
  induction images with
  | nil => simp [specMap]
  | cons img rest ih =>
    have := specImage_length_le abi m img
    simp only [specMap, List.length_append, List.map_cons, List.sum_cons]
    omega

theorem loadCommands_lt (abi : ABI) (m : Mem) (img : Image) (p : Nat × Nat)
    (h : loadCommands abi m img = some p) : p.1 < 2 ^ 64 := by
  unfold loadCommands at h
  split at h
  · simp at h
  · split at h
    · have hp := (Option.some.inj h).symm
      subst hp
      exact Nat.mod_lt _ (by decide)
    · split at h
      · have hp := (Option.some.inj h).symm
        subst hp
        exact Nat.mod_lt _ (by decide)
      · simp at h

theorem c_str_loadBytes_eq_nil (m : Mem) (a n : Nat) :
    c_str (loadBytes m a n) = [] ↔ (n = 0 ∨ load8 m a = 0) := by
  cases n with
  | zero => simp [c_str, loadBytes]
  | succ n =>
    by_cases h0 : load8 m a = 0
    · simp [c_str, loadBytes, List.takeWhile, h0]
    · have hb : (load8 m a != 0) = true := by simp [h0]
      simp [c_str, loadBytes, List.takeWhile, hb, h0]

/-! ## Theorems -/

/-- C1: for every state, whatever map is cached, and every address `a`,
`IsValidPointer(a)` returns true exactly when some range `r` of the map that
`GetFullAddr` returns has `r.start <= a < r.end`. -/
theorem IsValidPointer_iff (abi : ABI) (s : State) (a : Nat) :
    (IsValidPointer abi s a).1 = true
      ↔ ∃ r ∈ (GetFullAddr abi s).1, r.start ≤ a ∧ a < r.end_ := by
  show rangeLoop a (GetFullAddr abi s).1 = true ↔ _
  exact rangeLoop_iff a _

/-- C2: starting from an empty cache, `GetFullAddr` returns exactly the map of
the specification (`specMap`): images in loader order, for each image with a
non-null header and a recognised magic its first `ncmds` commands in order, one
range per `LC_SEGMENT_64` command and nothing for any other command. -/
theorem GetFullAddr_eq_specMap (abi : ABI) (s : State) (h : s.ranges = []) :
    (GetFullAddr abi s).1 = specMap abi s.mem s.images := by
  rw [GetFullAddr_of_empty abi s h]

/-- Instance of `GetFullAddr_eq_specMap` at `demoState`. -/
theorem GetFullAddr_eq_specMap_witness :
    demoState.ranges = []
      ∧ (GetFullAddr darwin demoState).1 = specMap darwin demoState.mem demoState.images :=
  ⟨rfl, GetFullAddr_eq_specMap darwin demoState rfl⟩

/-- C3: when `a` lies outside every range of the built map, `Read<T>(a)` returns
`T{}` for every value type `T` and leaves memory as it is; replacing the memory
by any other memory `m2` for which `a` is still outside the map gives the same
result. -/
theorem Read_outside_map {T : Type} (ct : CType T) (abi : ABI) (s : State) (a : Nat) (m2 : Mem)
    (h : ∀ r ∈ (GetFullAddr abi s).1, ¬ (r.start ≤ a ∧ a < r.end_))
    (h2 : ∀ r ∈ (GetFullAddr abi { s with mem := m2 }).1, ¬ (r.start ≤ a ∧ a < r.end_)) :
    (Read ct abi s a).1 = ct.zero
      ∧ (Read ct abi { s with mem := m2 } a).1 = (Read ct abi s a).1
      ∧ (Read ct abi s a).2.mem = s.mem := by
  rw [Read_of_invalid ct abi s a (IsValidPointer_of_outside abi s a h),
    Read_of_invalid ct abi _ a (IsValidPointer_of_outside abi _ a h2)]
  exact ⟨rfl, rfl, GetFullAddr_mem abi s⟩

set_option maxRecDepth 100000 in
/-- Instance of `Read_outside_map`: `Read<int32_t>(0x2000)` in `demoState`, and in
the same process with all memory zero. -/
theorem Read_outside_map_witness :
    (∀ r ∈ (GetFullAddr darwin demoState).1, ¬ (r.start ≤ 0x2000 ∧ 0x2000 < r.end_))
      ∧ (∀ r ∈ (GetFullAddr darwin { demoState with mem := fun _ => 0 }).1,
          ¬ (r.start ≤ 0x2000 ∧ 0x2000 < r.end_))
      ∧ (Read int32 darwin demoState 0x2000).1 = int32.zero
      ∧ (Read int32 darwin { demoState with mem := fun _ => 0 } 0x2000).1
          = (Read int32 darwin demoState 0x2000).1
      ∧ (Read int32 darwin demoState 0x2000).2.mem = demoState.mem :=
  ⟨by decide, by decide,
    Read_outside_map int32 darwin demoState 0x2000 (fun _ => 0) (by decide) (by decide)⟩

/-- C4: when `a` lies outside every range of the built map, `ReadString(a, n)`
returns the string `Invalid Pointer!!` for every `n`, also `n = 0`; it is never
the empty string. -/
theorem ReadString_outside_map (max_size : Nat) (abi : ABI) (s : State) (a n : Nat)
    (h : ∀ r ∈ (GetFullAddr abi s).1, ¬ (r.start ≤ a ∧ a < r.end_)) :
    (ReadString max_size abi s a n).1
        = Outcome.returned ("Invalid Pointer!!".toList.map Char.toNat)
      ∧ (ReadString max_size abi s a n).1 ≠ Outcome.returned [] := by
  rw [ReadString_of_invalid max_size abi s a n (IsValidPointer_of_outside abi s a h)]
  refine ⟨rfl, ?_⟩
  intro hempty
  have hne : invalidPointer ≠ [] := by decide
  exact hne (Outcome.returned.inj hempty)

set_option maxRecDepth 100000 in
/-- Instance of `ReadString_outside_map`: `ReadString(0x2000, 0)` in `demoState`. -/
theorem ReadString_outside_map_witness :
    (∀ r ∈ (GetFullAddr darwin demoState).1, ¬ (r.start ≤ 0x2000 ∧ 0x2000 < r.end_))
      ∧ (ReadString 0x7fffffffffffffff darwin demoState 0x2000 0).1
          = Outcome.returned ("Invalid Pointer!!".toList.map Char.toNat)
      ∧ (ReadString 0x7fffffffffffffff darwin demoState 0x2000 0).1 ≠ Outcome.returned [] :=
  ⟨by decide, ReadString_outside_map 0x7fffffffffffffff darwin demoState 0x2000 0 (by decide)⟩

/-- C5: when `a` lies outside every range of the built map, `Write<T>(a, v)`
leaves the whole memory unchanged; the call has no result and its only effect
is the one of the validity check (the address map is cached). -/
theorem Write_outside_map {T : Type} (ct : CType T) (abi : ABI) (s : State) (a : Nat) (v : T)
    (h : ∀ r ∈ (GetFullAddr abi s).1, ¬ (r.start ≤ a ∧ a < r.end_)) :
    (Write ct abi s a v).mem = s.mem
      ∧ Write ct abi s a v = (IsValidPointer abi s a).2 := by
  rw [Write_of_invalid ct abi s a v (IsValidPointer_of_outside abi s a h)]
  exact ⟨GetFullAddr_mem abi s, rfl⟩

set_option maxRecDepth 100000 in
/-- Instance of `Write_outside_map`: `Write<int32_t>(0x2000, 42)` in `demoState`. -/
theorem Write_outside_map_witness :
    (∀ r ∈ (GetFullAddr darwin demoState).1, ¬ (r.start ≤ 0x2000 ∧ 0x2000 < r.end_))
      ∧ (Write int32 darwin demoState 0x2000 42).mem = demoState.mem
      ∧ Write int32 darwin demoState 0x2000 42 = (IsValidPointer darwin demoState 0x2000).2 :=
  ⟨by decide, Write_outside_map int32 darwin demoState 0x2000 42 (by decide)⟩

/-- C6: round trip. For every address `a` that `IsValidPointer` accepts and every
32-bit integer `v`, `Write<int32>(a, v)` followed by `Read<int32>(a)` returns
`v`. -/
theorem Write_Read_int32 (abi : ABI) (s : State) (a : Nat) (v : Int)
    (hlo : -2147483648 ≤ v) (hhi : v < 2147483648)
    (h : (IsValidPointer abi s a).1 = true) :
    (Read int32 abi (Write int32 abi s a v) a).1 = v := by
  have hne := ranges_ne_nil_of_valid abi s a h
  have hvalid : (IsValidPointer abi (Write int32 abi s a v) a).1 = true := by
    rw [Write_of_valid int32 abi s a v h]
    have hne2 : ({ (GetFullAddr abi s).2 with
        mem := storeBytes s.mem a (int32.toBytes v) } : State).ranges ≠ [] := hne
    rw [IsValidPointer_of_cached abi _ a hne2]
    show rangeLoop a (GetFullAddr abi s).2.ranges = true
    rw [GetFullAddr_ranges]
    exact h
  rw [Read_of_valid int32 abi _ a hvalid, Write_of_valid int32 abi s a v h]
  show int32.ofBytes (loadBytes (storeBytes s.mem a (int32.toBytes v)) a
    (int32.toBytes v).length) = v
  rw [loadBytes_storeBytes _ _ _ (by rw [int32.toBytes_length]; decide)]
  exact int32_roundtrip v hlo hhi

set_option maxRecDepth 100000 in
/-- Instance of `Write_Read_int32`: `Write<int32>(0x100005000, 42)` and
`Read<int32>(0x100005000)` in `demoState`. -/
theorem Write_Read_int32_witness :
    (IsValidPointer darwin demoState 0x100005000).1 = true
      ∧ (Read int32 darwin (Write int32 darwin demoState 0x100005000 42) 0x100005000).1 = 42 :=
  ⟨by decide,
    Write_Read_int32 darwin demoState 0x100005000 42 (by decide) (by decide) (by decide)⟩

set_option maxRecDepth 100000 in
/-- C7 as stated fails: it does not hold for every `maxLength`. At the valid
address `0x100005000`, with `max_size = 2^63 - 1`: for `n = 2^64 - 1` the size
`n + 1` wraps to `0` and the copy of `n` bytes overruns the empty vector; for
`n = 2^63 - 1` the constructor of the vector of `2^63` bytes throws. In both
cases `ReadString` returns no string. -/
theorem ReadString_overruns_or_throws :
    (IsValidPointer darwin stringState 0x100005000).1 = true
      ∧ (ReadString 0x7fffffffffffffff darwin stringState 0x100005000 0xffffffffffffffff).1
          = Outcome.overrun
      ∧ (∀ str, (ReadString 0x7fffffffffffffff darwin stringState 0x100005000
          0xffffffffffffffff).1 ≠ Outcome.returned str)
      ∧ (ReadString 0x7fffffffffffffff darwin stringState 0x100005000 0x7fffffffffffffff).1
          = Outcome.threw
      ∧ (∀ str, (ReadString 0x7fffffffffffffff darwin stringState 0x100005000
          0x7fffffffffffffff).1 ≠ Outcome.returned str) := by
  have h1 : (ReadString 0x7fffffffffffffff darwin stringState 0x100005000
      0xffffffffffffffff).1 = Outcome.overrun := by decide
  have h2 : (ReadString 0x7fffffffffffffff darwin stringState 0x100005000
      0x7fffffffffffffff).1 = Outcome.threw := by decide
  refine ⟨by decide, h1, ?_, h2, ?_⟩
  · intro str hs
    rw [h1] at hs
    cases hs
  · intro str hs
    rw [h2] at hs
    cases hs

/-- C7, amended: for every valid address `a` and every `n` whose vector of `n + 1`
bytes can be constructed (`n + 1 <= max_size`, with `max_size < 2^64`),
`ReadString(a, n)` returns the bytes at `a`, `a + 1`, ..., `a + k - 1`, where
`k <= n`, none of these bytes is zero, and the byte at `a + k` is zero unless
`k = n`; so its length is at most `n` and it contains no zero byte. -/
theorem ReadString_valid (max_size : Nat) (abi : ABI) (s : State) (a n : Nat)
    (h : (IsValidPointer abi s a).1 = true) (hn : n + 1 ≤ max_size) (hmax : max_size < 2 ^ 64) :
    ∃ str, (ReadString max_size abi s a n).1 = Outcome.returned str
      ∧ (∃ k, k ≤ n
          ∧ str = (List.range k).map (fun i => load8 s.mem (a + i))
          ∧ (∀ i, i < k → load8 s.mem (a + i) ≠ 0)
          ∧ (k < n → load8 s.mem (a + k) = 0))
      ∧ str.length ≤ n
      ∧ 0 ∉ str := by
  rw [ReadString_of_valid max_size abi s a n h hn hmax]
  obtain ⟨k, hk, heq, hnz, hz⟩ := c_str_loadBytes s.mem n a
  refine ⟨c_str (loadBytes s.mem a n), rfl, ⟨k, hk, heq, hnz, hz⟩, ?_, ?_⟩
  · rw [heq, List.length_map, List.length_range]
    exact hk
  · rw [heq]
    intro hmem
    obtain ⟨i, hi, h0⟩ := List.mem_map.mp hmem
    exact hnz i (List.mem_range.mp hi) h0

set_option maxRecDepth 100000 in
/-- Instance of `ReadString_valid`: with the bytes `ab\0cd` at `0x100005000`,
`ReadString(0x100005000, 5)` is `ab`. -/
theorem ReadString_valid_witness :
    (IsValidPointer darwin stringState 0x100005000).1 = true
      ∧ 5 + 1 ≤ 0x7fffffffffffffff
      ∧ 0x7fffffffffffffff < 2 ^ 64
      ∧ (ReadString 0x7fffffffffffffff darwin stringState 0x100005000 5).1
          = Outcome.returned [97, 98]
      ∧ ∃ str, (ReadString 0x7fffffffffffffff darwin stringState 0x100005000 5).1
            = Outcome.returned str
          ∧ (∃ k, k ≤ 5
              ∧ str = (List.range k).map (fun i => load8 stringState.mem (0x100005000 + i))
              ∧ (∀ i, i < k → load8 stringState.mem (0x100005000 + i) ≠ 0)
              ∧ (k < 5 → load8 stringState.mem (0x100005000 + k) = 0))
          ∧ str.length ≤ 5
          ∧ 0 ∉ str :=
  ⟨by decide, by decide, by decide, by decide,
    ReadString_valid 0x7fffffffffffffff darwin stringState 0x100005000 5
      (by decide) (by decide) (by decide)⟩

/-- C8 as stated fails: with an empty module-base cache and the one image `/A`,
no image path contains the name `A\0B`, and `GetImageBase` returns the header
address `0x1000` of the image, not `0`. -/
theorem GetImageBase_embedded_nul :
    demoState.imageBase = 0
      ∧ (∀ img ∈ demoState.images, ¬ Contains img.name [65, 0, 66])
      ∧ (GetImageBase demoState [65, 0, 66]).1 = 0x1000
      ∧ (GetImageBase demoState [65, 0, 66]).1 ≠ 0 := by
  refine ⟨rfl, ?_, by decide, by decide⟩
  intro img himg hc
  have himg2 : img = demoImage := by simpa [demoState] using himg
  subst himg2
  have : strstr demoImage.name [65, 0, 66] = true := (strstr_iff _ _).mpr hc
  revert this
  decide

/-- C8, amended: with an empty module-base cache, `GetImageBase(name)` returns `0`
when no image path contains the characters of `name` before its first NUL (all
of `name` when it has none), and otherwise the header address of the first
image, in loader order, whose path contains them. -/
theorem GetImageBase_first_match (s : State) (name : List Nat) (h : s.imageBase = 0) :
    ((∀ img ∈ s.images, ¬ Contains img.name (c_str name)) → (GetImageBase s name).1 = 0)
      ∧ (∀ (l1 : List Image) (img : Image) (l2 : List Image), s.images = l1 ++ img :: l2 →
          (∀ x ∈ l1, ¬ Contains x.name (c_str name)) → Contains img.name (c_str name) →
          (GetImageBase s name).1 = img.header) := by
  rw [GetImageBase_of_zero s name h]
  constructor
  · intro hno
    exact imageBaseLoop_no_match name s.images 0 hno
  · intro l1 img l2 himgs hno hyes
    rw [himgs]
    exact imageBaseLoop_first_match name l1 img l2 0 hno hyes

/-- Instance of `GetImageBase_first_match` in a process with the images `/A` and
`/AB`: the name `B` matches no image before the second one, the name `A`
resolves to the first image although the second matches too, and the name `C`
resolves to `0`. -/
theorem GetImageBase_first_match_witness :
    ({ demoState with images := [demoImage, ⟨[47, 65, 66], 0x3000, 0⟩] } : State).imageBase = 0
      ∧ (GetImageBase { demoState with images := [demoImage, ⟨[47, 65, 66], 0x3000, 0⟩] }
          [66]).1 = 0x3000
      ∧ (GetImageBase { demoState with images := [demoImage, ⟨[47, 65, 66], 0x3000, 0⟩] }
          [65]).1 = 0x1000
      ∧ (GetImageBase { demoState with images := [demoImage, ⟨[47, 65, 66], 0x3000, 0⟩] }
          [67]).1 = 0 := by
  refine ⟨rfl, ?_, ?_, ?_⟩
  · refine (GetImageBase_first_match _ [66] rfl).2 [demoImage] ⟨[47, 65, 66], 0x3000, 0⟩ [] rfl
      ?_ ⟨[47, 65], [], rfl⟩
    intro x hx hc
    have hx2 : x = demoImage := by simpa using hx
    subst hx2
    have : strstr demoImage.name (c_str [66]) = true := (strstr_iff _ _).mpr hc
    revert this
    decide
  · exact (GetImageBase_first_match _ [65] rfl).2 [] demoImage [⟨[47, 65, 66], 0x3000, 0⟩] rfl
      (by simp) ⟨[47], [], rfl⟩
  · refine (GetImageBase_first_match _ [67] rfl).1 ?_
    intro x hx hc
    have hs : strstr x.name (c_str [67]) = true := (strstr_iff _ _).mpr hc
    have hx2 : x = demoImage ∨ x = ⟨[47, 65, 66], 0x3000, 0⟩ := by simpa using hx
    rcases hx2 with rfl | rfl
    · revert hs; decide
    · revert hs; decide

set_option maxRecDepth 100000 in
/-- C9 as stated fails: from an empty cache, a first call made while dyld lists no
image returns the empty map, and a second call (here through `IsValidPointer`)
made after an image was loaded returns a different map; the image walk ran
twice. -/
theorem GetFullAddr_rewalks_while_empty :
    demoState.ranges = [] ∧ demoState.walks = 0
      ∧ (callSequence darwin demoState
          [(emptyWorld, Call.direct), (demoWorld, Call.viaIsValidPointer 0)]).1
          = [[], [⟨0x100005000, 0x100009000⟩]]
      ∧ (callSequence darwin demoState
          [(emptyWorld, Call.direct), (demoWorld, Call.viaIsValidPointer 0)]).2.walks = 2 := by
  refine ⟨rfl, rfl, by decide, by decide⟩

/-- C9, amended: in every sequence of calls to `GetFullAddr` (direct or through
`IsValidPointer`), whatever memory and the image list are at each call: after a
call that returned a non-empty map, every later call returns a map with the
same contents and none of them walks the images; a call made while the cached
map is empty performs the image walk. -/
theorem GetFullAddr_idempotent_once_nonempty (abi : ABI) (s : State) (w : World) (c : Call)
    (rest : List (World × Call)) :
    ((callGetFullAddr abi s w c).1 ≠ [] →
        (∀ m ∈ (callSequence abi (callGetFullAddr abi s w c).2 rest).1,
            m = (callGetFullAddr abi s w c).1)
          ∧ (callSequence abi (callGetFullAddr abi s w c).2 rest).2.walks
              = (callGetFullAddr abi s w c).2.walks)
      ∧ (s.ranges = [] → (callGetFullAddr abi s w c).2.walks = s.walks + 1) := by
  constructor
  · intro hne
    have hr : (callGetFullAddr abi s w c).2.ranges = (callGetFullAddr abi s w c).1 := by
      rw [callGetFullAddr_snd, callGetFullAddr_fst, GetFullAddr_ranges]
    have hne2 : (callGetFullAddr abi s w c).2.ranges ≠ [] := by rw [hr]; exact hne
    obtain ⟨h1, h2, _⟩ := callSequence_of_cached abi rest _ hne2
    rw [hr] at h1
    exact ⟨h1, h2⟩
  · intro hs
    have hs2 : ({ s with mem := w.mem, images := w.images } : State).ranges = [] := hs
    rw [callGetFullAddr_snd, GetFullAddr_of_empty abi _ hs2]

set_option maxRecDepth 100000 in
/-- Instance of `GetFullAddr_idempotent_once_nonempty`: a first call in `demoWorld`
from the empty cache, then a call after all images were unloaded and a call
after memory was cleared. -/
theorem GetFullAddr_idempotent_once_nonempty_witness :
    (callGetFullAddr darwin demoState demoWorld Call.direct).1 ≠ []
      ∧ demoState.ranges = []
      ∧ ((∀ m ∈ (callSequence darwin (callGetFullAddr darwin demoState demoWorld Call.direct).2
              [(emptyWorld, Call.viaIsValidPointer 0), (⟨fun _ => 0, [demoImage]⟩, Call.direct)]).1,
            m = (callGetFullAddr darwin demoState demoWorld Call.direct).1)
          ∧ (callSequence darwin (callGetFullAddr darwin demoState demoWorld Call.direct).2
              [(emptyWorld, Call.viaIsValidPointer 0), (⟨fun _ => 0, [demoImage]⟩, Call.direct)]).2.walks
              = (callGetFullAddr darwin demoState demoWorld Call.direct).2.walks)
      ∧ (callGetFullAddr darwin demoState demoWorld Call.direct).2.walks = demoState.walks + 1 :=
  ⟨by decide, rfl,
    (GetFullAddr_idempotent_once_nonempty darwin demoState demoWorld Call.direct
      [(emptyWorld, Call.viaIsValidPointer 0), (⟨fun _ => 0, [demoImage]⟩, Call.direct)]).1
      (by decide),
    (GetFullAddr_idempotent_once_nonempty darwin demoState demoWorld Call.direct
      [(emptyWorld, Call.viaIsValidPointer 0), (⟨fun _ => 0, [demoImage]⟩, Call.direct)]).2 rfl⟩

/-- C10: inserting, at any position of the image list, an image whose header is
null or whose magic is neither `MH_MAGIC_64` nor `MH_MAGIC` does not change the
map `GetFullAddr` returns; built from an empty cache, the map is the ranges of
the images before it followed by the ranges of the images after it. -/
theorem GetFullAddr_skips_image (abi : ABI) (s : State) (l1 l2 : List Image) (bad : Image)
    (h : bad.header = 0
      ∨ (load32 s.mem (bad.header + abi.off_magic) ≠ abi.MH_MAGIC_64
          ∧ load32 s.mem (bad.header + abi.off_magic) ≠ abi.MH_MAGIC)) :
    (GetFullAddr abi { s with images := l1 ++ bad :: l2 }).1
        = (GetFullAddr abi { s with images := l1 ++ l2 }).1
      ∧ (s.ranges = [] →
          (GetFullAddr abi { s with images := l1 ++ bad :: l2 }).1
            = specMap abi s.mem l1 ++ specMap abi s.mem l2) := by
  have hbad : specImage abi s.mem bad = [] := by
    unfold specImage
    rcases h with h0 | ⟨h64, h32⟩
    · simp [h0]
    · simp [h64, h32]
  have hmap : specMap abi s.mem (l1 ++ bad :: l2) = specMap abi s.mem l1 ++ specMap abi s.mem l2 := by
    rw [specMap_append]
    simp [specMap, hbad]
  by_cases hs : s.ranges = []
  · have e1 : ({ s with images := l1 ++ bad :: l2 } : State).ranges = [] := hs
    have e2 : ({ s with images := l1 ++ l2 } : State).ranges = [] := hs
    rw [GetFullAddr_of_empty abi _ e1, GetFullAddr_of_empty abi _ e2]
    simp only [hmap, specMap_append, implies_true, and_self]
  · have e1 : ({ s with images := l1 ++ bad :: l2 } : State).ranges ≠ [] := hs
    have e2 : ({ s with images := l1 ++ l2 } : State).ranges ≠ [] := hs
    rw [GetFullAddr_of_nonempty abi _ e1, GetFullAddr_of_nonempty abi _ e2]
    exact ⟨rfl, fun e => absurd e hs⟩

set_option maxRecDepth 100000 in
/-- Instance of `GetFullAddr_skips_image`: an image whose header at `0x2000` has the
magic `0` is inserted between two copies of `demoImage`. -/
theorem GetFullAddr_skips_image_witness :
    (load32 demoState.mem (0x2000 + darwin.off_magic) ≠ darwin.MH_MAGIC_64
        ∧ load32 demoState.mem (0x2000 + darwin.off_magic) ≠ darwin.MH_MAGIC)
      ∧ (GetFullAddr darwin { demoState with images := [demoImage] ++ ⟨[47, 66], 0x2000, 0⟩ :: [demoImage] }).1
          = (GetFullAddr darwin { demoState with images := [demoImage] ++ [demoImage] }).1
      ∧ (demoState.ranges = [] →
          (GetFullAddr darwin { demoState with images := [demoImage] ++ ⟨[47, 66], 0x2000, 0⟩ :: [demoImage] }).1
            = specMap darwin demoState.mem [demoImage] ++ specMap darwin demoState.mem [demoImage]) :=
  ⟨by decide,
    GetFullAddr_skips_image darwin demoState [demoImage] [demoImage] ⟨[47, 66], 0x2000, 0⟩
      (Or.inr (by decide))⟩

/-- C11: in every sequence of calls to `GetImageBase`, whatever the name, the
memory and the image list are at each call: after a call that returned a
non-zero address `b`, every later call returns `b` and none of them scans the
image list; a call made while the cached value is `0` scans the image list. -/
theorem GetImageBase_cached_once_nonzero (s : State) (w : World) (name : List Nat)
    (rest : List (World × List Nat)) :
    ((GetImageBase { s with mem := w.mem, images := w.images } name).1 ≠ 0 →
        (∀ b ∈ (baseSequence
              (GetImageBase { s with mem := w.mem, images := w.images } name).2 rest).1,
            b = (GetImageBase { s with mem := w.mem, images := w.images } name).1)
          ∧ (baseSequence
              (GetImageBase { s with mem := w.mem, images := w.images } name).2 rest).2.scans
              = (GetImageBase { s with mem := w.mem, images := w.images } name).2.scans)
      ∧ (s.imageBase = 0 →
          (GetImageBase { s with mem := w.mem, images := w.images } name).2.scans
            = s.scans + 1) := by
  constructor
  · intro hne
    have hb := GetImageBase_imageBase { s with mem := w.mem, images := w.images } name
    have hne2 : (GetImageBase { s with mem := w.mem, images := w.images } name).2.imageBase ≠ 0 := by
      rw [hb]; exact hne
    obtain ⟨h1, h2, _⟩ := baseSequence_of_cached rest _ hne2
    rw [hb] at h1
    exact ⟨h1, h2⟩
  · intro hs
    exact GetImageBase_scans_of_zero { s with mem := w.mem, images := w.images } name hs

/-- Instance of `GetImageBase_cached_once_nonzero`: the name `A` is resolved in
`demoWorld`; then the name `B` is asked after all images were unloaded, and the
name `A` after the image moved to the header address `0x3000`. -/
theorem GetImageBase_cached_once_nonzero_witness :
    (GetImageBase { demoState with mem := demoWorld.mem, images := demoWorld.images } [65]).1 ≠ 0
      ∧ demoState.imageBase = 0
      ∧ (baseSequence
          (GetImageBase { demoState with mem := demoWorld.mem, images := demoWorld.images } [65]).2
          [(emptyWorld, [66]), (⟨demoMem, [⟨[47, 65], 0x3000, 0⟩]⟩, [65])]).1 = [0x1000, 0x1000]
      ∧ ((∀ b ∈ (baseSequence
              (GetImageBase { demoState with mem := demoWorld.mem, images := demoWorld.images } [65]).2
              [(emptyWorld, [66]), (⟨demoMem, [⟨[47, 65], 0x3000, 0⟩]⟩, [65])]).1,
            b = (GetImageBase { demoState with mem := demoWorld.mem, images := demoWorld.images }
              [65]).1)
          ∧ (baseSequence
              (GetImageBase { demoState with mem := demoWorld.mem, images := demoWorld.images } [65]).2
              [(emptyWorld, [66]), (⟨demoMem, [⟨[47, 65], 0x3000, 0⟩]⟩, [65])]).2.scans
              = (GetImageBase { demoState with mem := demoWorld.mem, images := demoWorld.images }
                [65]).2.scans)
      ∧ (GetImageBase { demoState with mem := demoWorld.mem, images := demoWorld.images }
          [65]).2.scans = demoState.scans + 1 :=
  ⟨by decide, rfl, by decide,
    (GetImageBase_cached_once_nonzero demoState demoWorld [65]
      [(emptyWorld, [66]), (⟨demoMem, [⟨[47, 65], 0x3000, 0⟩]⟩, [65])]).1 (by decide),
    (GetImageBase_cached_once_nonzero demoState demoWorld [65]
      [(emptyWorld, [66]), (⟨demoMem, [⟨[47, 65], 0x3000, 0⟩]⟩, [65])]).2 rfl⟩

set_option maxRecDepth 100000 in
/-- C12 as stated fails: for the segment command with `vmaddr = 0x100000000`,
`vmsize = 0x4000` and the slide `-0x100001000`, `GetFullAddr` puts the range with
`start = 0xfffffffffffff000` and `end = 0x3000` in the map, and `end < start`. -/
theorem GetFullAddr_range_wraps :
    wrapState.ranges = []
      ∧ (GetFullAddr darwin wrapState).1 = [⟨0xfffffffffffff000, 0x3000⟩]
      ∧ ¬ (∀ r ∈ (GetFullAddr darwin wrapState).1, r.start ≤ r.end_) := by
  refine ⟨rfl, by decide, by decide⟩

/-- C12, amended: every range that `GetFullAddr` puts in the map comes from an
`LC_SEGMENT_64` command of some image, with `start = (vmaddr + slide) mod 2^64`
and `end = (start + vmsize) mod 2^64`; it satisfies `end >= start` exactly when
`start + vmsize < 2^64`, that is, when the sum does not wrap around. -/
theorem GetFullAddr_range_end (abi : ABI) (s : State) (h : s.ranges = []) (r : AddrRange)
    (hr : r ∈ (GetFullAddr abi s).1) :
    ∃ img ∈ s.images, ∃ c,
      load32 s.mem (c + abi.off_cmd) = abi.LC_SEGMENT_64
        ∧ r.start = (((load64 s.mem (c + abi.off_vmaddr) : Int) + img.slide) % 2 ^ 64).toNat
        ∧ r.end_ = (r.start + load64 s.mem (c + abi.off_vmsize)) % 2 ^ 64
        ∧ (r.start ≤ r.end_ ↔ r.start + load64 s.mem (c + abi.off_vmsize) < 2 ^ 64) := by
  rw [GetFullAddr_of_empty abi s h] at hr
  obtain ⟨img, himg, c, hc⟩ := mem_specMap abi s.mem s.images r hr
  obtain ⟨htag, hstart, hend⟩ := specSegment_some abi s.mem img.slide c r hc
  refine ⟨img, himg, c, htag, hstart, hend, ?_⟩
  have hsz := load64_lt s.mem (c + abi.off_vmsize)
  have hst : r.start < 2 ^ 64 := by
    rw [hstart]
    omega
  rw [hend]
  omega

set_option maxRecDepth 100000 in
/-- Instance of `GetFullAddr_range_end`: the range of `demoState`. -/
theorem GetFullAddr_range_end_witness :
    demoState.ranges = []
      ∧ (⟨0x100005000, 0x100009000⟩ : AddrRange) ∈ (GetFullAddr darwin demoState).1
      ∧ ∃ img ∈ demoState.images, ∃ c,
          load32 demoState.mem (c + darwin.off_cmd) = darwin.LC_SEGMENT_64
            ∧ (⟨0x100005000, 0x100009000⟩ : AddrRange).start
                = (((load64 demoState.mem (c + darwin.off_vmaddr) : Int) + img.slide) % 2 ^ 64).toNat
            ∧ (⟨0x100005000, 0x100009000⟩ : AddrRange).end_
                = ((⟨0x100005000, 0x100009000⟩ : AddrRange).start
                    + load64 demoState.mem (c + darwin.off_vmsize)) % 2 ^ 64
            ∧ ((⟨0x100005000, 0x100009000⟩ : AddrRange).start
                  ≤ (⟨0x100005000, 0x100009000⟩ : AddrRange).end_
                ↔ (⟨0x100005000, 0x100009000⟩ : AddrRange).start
                    + load64 demoState.mem (c + darwin.off_vmsize) < 2 ^ 64) :=
  ⟨rfl, by decide,
    GetFullAddr_range_end darwin demoState rfl ⟨0x100005000, 0x100009000⟩ (by decide)⟩

/-- C13: only the starting address is validated. For every valid address `a` and
every value type `T`, `Read<T>(a)` returns the value that the `sizeof(T)` bytes at
`a`, ..., `a + sizeof(T) - 1` represent; nothing is asked of the addresses after
`a`, so this holds also when `a` is the last address of its range. -/
theorem Read_valid_bytes {T : Type} (ct : CType T) (abi : ABI) (s : State) (a : Nat)
    (h : (IsValidPointer abi s a).1 = true) :
    (Read ct abi s a).1 = ct.ofBytes ((List.range ct.size).map (fun i => load8 s.mem (a + i))) := by
  rw [Read_of_valid ct abi s a h, loadBytes_eq_map]

set_option maxRecDepth 100000 in
/-- Instance of `Read_valid_bytes`: the map of `boundaryState` is
`[0x100005000, 0x100009000)`, the bytes `1, 2, 3, 4` lie at `0x100008fff`, and
`Read<int32>(0x100008fff)` is `0x04030201` although the three addresses after
`0x100008fff` are invalid. -/
theorem Read_valid_bytes_witness :
    (IsValidPointer darwin boundaryState 0x100008fff).1 = true
      ∧ (IsValidPointer darwin boundaryState 0x100009000).1 = false
      ∧ (IsValidPointer darwin boundaryState 0x100009001).1 = false
      ∧ (IsValidPointer darwin boundaryState 0x100009002).1 = false
      ∧ (Read int32 darwin boundaryState 0x100008fff).1 = 0x04030201
      ∧ (Read int32 darwin boundaryState 0x100008fff).1
          = int32.ofBytes ((List.range int32.size).map
              (fun i => load8 boundaryState.mem (0x100008fff + i))) :=
  ⟨by decide, by decide, by decide, by decide, by decide,
    Read_valid_bytes int32 darwin boundaryState 0x100008fff (by decide)⟩

/-- C14: for every valid address `a`, type `T` and value `v`, after
`Write<T>(a, v)` the byte at `a + i` is byte `i` of the representation of `v`,
for every `i < sizeof(T)`, and every byte at an address outside
`a`, ..., `a + sizeof(T) - 1` is what it was. -/
theorem Write_valid_bytes {T : Type} (ct : CType T) (abi : ABI) (s : State) (a : Nat) (v : T)
    (h : (IsValidPointer abi s a).1 = true) (hsize : ct.size ≤ 2 ^ 64) :
    (∀ i, i < ct.size →
        (Write ct abi s a v).mem ((a + i) % 2 ^ 64) = (ct.toBytes v).getD i 0 % 256)
      ∧ (∀ x, (∀ i, i < ct.size → x ≠ (a + i) % 2 ^ 64) →
          (Write ct abi s a v).mem x = s.mem x) := by
  rw [Write_of_valid ct abi s a v h]
  have hlen := ct.toBytes_length v
  constructor
  · intro i hi
    exact storeBytes_at (ct.toBytes v) s.mem a i (by omega) (by omega)
  · intro x hx
    exact storeBytes_other (ct.toBytes v) s.mem a x (fun i hi => hx i (by omega))

set_option maxRecDepth 100000 in
/-- Instance of `Write_valid_bytes`: `Write<int32>(0x100008fff, 0x04030201)` in
`demoState`. -/
theorem Write_valid_bytes_witness :
    (IsValidPointer darwin demoState 0x100008fff).1 = true
      ∧ int32.size ≤ 2 ^ 64
      ∧ (∀ i, i < int32.size →
          (Write int32 darwin demoState 0x100008fff 0x04030201).mem ((0x100008fff + i) % 2 ^ 64)
            = (int32.toBytes 0x04030201).getD i 0 % 256)
      ∧ (∀ x, (∀ i, i < int32.size → x ≠ (0x100008fff + i) % 2 ^ 64) →
          (Write int32 darwin demoState 0x100008fff 0x04030201).mem x = demoState.mem x) :=
  ⟨by decide, by decide,
    Write_valid_bytes int32 darwin demoState 0x100008fff 0x04030201 (by decide) (by decide)⟩

/-- C15: for one image, the load-command loop performs exactly `ncmds`
iterations whatever the `cmdsize` values are; when the first command has
`cmdsize = 0` every iteration visits that same command; the image contributes at
most `ncmds` ranges, and none when `ncmds = 0`, when no visited command is tagged
`LC_SEGMENT_64`, or when the image is skipped.  The build is a total function: it
returns at most the sum of the `ncmds` of the images, at worst the empty map. -/
theorem cmdLoop_iterations (abi : ABI) (s : State) (img : Image) (ranges : List AddrRange) :
    (∀ cmd ncmds, loadCommands abi s.mem img = some (cmd, ncmds) →
        (cmdLoopVisits abi s.mem img.slide ncmds cmd ranges []).1
            = imageLoop abi s.mem [img] ranges
          ∧ (cmdLoopVisits abi s.mem img.slide ncmds cmd ranges []).2.length = ncmds
          ∧ (load32 s.mem (cmd + abi.off_cmdsize) = 0 →
              (cmdLoopVisits abi s.mem img.slide ncmds cmd ranges []).2
                = List.replicate ncmds cmd)
          ∧ ∃ added, imageLoop abi s.mem [img] ranges = ranges ++ added
              ∧ added.length ≤ ncmds
              ∧ (ncmds = 0 → added = [])
              ∧ ((∀ c ∈ (cmdLoopVisits abi s.mem img.slide ncmds cmd ranges []).2,
                    load32 s.mem (c + abi.off_cmd) ≠ abi.LC_SEGMENT_64) → added = []))
      ∧ (loadCommands abi s.mem img = none → imageLoop abi s.mem [img] ranges = ranges)
      ∧ (s.ranges = [] →
          (GetFullAddr abi s).1.length ≤ (s.images.map (imageNcmds abi s.mem)).sum)
      ∧ (s.ranges = [] → s.images = [] → (GetFullAddr abi s).1 = []) := by
  refine ⟨?_, ?_, ?_, ?_⟩
  · intro cmd ncmds hlc
    have hsingle : imageLoop abi s.mem [img] ranges = cmdLoop abi s.mem img.slide ncmds cmd ranges := by
      rw [imageLoop_single, hlc]
    have hlen : (specImage abi s.mem img).length ≤ ncmds := by
      have := specImage_length_le abi s.mem img
      simpa [imageNcmds, hlc] using this
    refine ⟨?_, ?_, ?_, specImage abi s.mem img, imageLoop_single_eq abi s.mem img ranges,
      hlen, ?_, ?_⟩
    · rw [cmdLoopVisits_fst, hsingle]
    · rw [cmdLoopVisits_length]
      simp
    · intro hzero
      rw [cmdLoopVisits_zero_size abi s.mem img.slide cmd
        (loadCommands_lt abi s.mem img (cmd, ncmds) hlc) hzero]
      simp
    · intro hn
      have : (specImage abi s.mem img).length ≤ 0 := by omega
      exact List.length_eq_zero.mp (Nat.le_zero.mp this)
    · intro hno
      have hv : (cmdLoopVisits abi s.mem img.slide ncmds cmd ranges []).2
          = (cmdLoopVisits abi s.mem img.slide ncmds cmd [] []).2 := by
        rw [cmdLoopVisits_snd]
        simp
      rw [hv] at hno
      have h1 := cmdLoop_no_segment abi s.mem img.slide ncmds cmd ranges hno
      rw [← hsingle, imageLoop_single_eq] at h1
      simpa using h1
  · intro hlc
    rw [imageLoop_single, hlc]
  · intro hs
    rw [GetFullAddr_of_empty abi s hs]
    exact specMap_length_le abi s.mem s.images
  · intro hs hi
    rw [GetFullAddr_of_empty abi s hs, hi]
    rfl

set_option maxRecDepth 100000 in
/-- Instance of `cmdLoop_iterations`: in `zeroSizeState` the header has
`ncmds = 3` and its first command, an `LC_SEGMENT_64` at `0x1020`, has
`cmdsize = 0`; the loop visits `0x1020` three times and the image contributes
the same range three times. -/
theorem cmdLoop_iterations_witness :
    loadCommands darwin zeroSizeState.mem demoImage = some (0x1020, 3)
      ∧ load32 zeroSizeState.mem (0x1020 + darwin.off_cmdsize) = 0
      ∧ (GetFullAddr darwin zeroSizeState).1
          = [⟨0x100005000, 0x100009000⟩, ⟨0x100005000, 0x100009000⟩,
             ⟨0x100005000, 0x100009000⟩]
      ∧ (cmdLoopVisits darwin zeroSizeState.mem demoImage.slide 3 0x1020 [] []).2
          = List.replicate 3 0x1020
      ∧ ((cmdLoopVisits darwin zeroSizeState.mem demoImage.slide 3 0x1020 [] []).1
            = imageLoop darwin zeroSizeState.mem [demoImage] []
          ∧ (cmdLoopVisits darwin zeroSizeState.mem demoImage.slide 3 0x1020 [] []).2.length = 3
          ∧ (load32 zeroSizeState.mem (0x1020 + darwin.off_cmdsize) = 0 →
              (cmdLoopVisits darwin zeroSizeState.mem demoImage.slide 3 0x1020 [] []).2
                = List.replicate 3 0x1020)
          ∧ ∃ added, imageLoop darwin zeroSizeState.mem [demoImage] [] = [] ++ added
              ∧ added.length ≤ 3
              ∧ (3 = 0 → added = [])
              ∧ ((∀ c ∈ (cmdLoopVisits darwin zeroSizeState.mem demoImage.slide 3 0x1020 [] []).2,
                    load32 zeroSizeState.mem (c + darwin.off_cmd) ≠ darwin.LC_SEGMENT_64) →
                  added = [])) :=
  ⟨by decide, by decide, by decide,
    ((cmdLoop_iterations darwin zeroSizeState demoImage []).1 0x1020 3 (by decide)).2.2.1
      (by decide),
    (cmdLoop_iterations darwin zeroSizeState demoImage []).1 0x1020 3 (by decide)⟩

/-- C16: the copy-failure branch of `ReadString` is not reachable. Whenever the
first `IsValidPointer` check of `ReadString` accepts the address, `_read`, called
in the state that check leaves, returns true; so, for every `maxLength` and
every `max_size`, `ReadString` returns the empty string only at a valid address
with `maxLength = 0` or a zero first byte (an invalid address gives
`Invalid Pointer!!`, which is not empty), and it does return the empty string
there whenever the vector can be constructed. -/
theorem ReadString_copy_succeeds (max_size : Nat) (abi : ABI) (s : State) (a n : Nat) :
    ((IsValidPointer abi s a).1 = true →
        (_read abi (IsValidPointer abi s a).2 a (List.replicate ((n + 1) % 2 ^ 64) 0) n).1 = true
          ∧ (n + 1 ≤ max_size → max_size < 2 ^ 64 →
              ((ReadString max_size abi s a n).1 = Outcome.returned []
                ↔ (n = 0 ∨ load8 s.mem a = 0))))
      ∧ ((ReadString max_size abi s a n).1 = Outcome.returned [] →
          (IsValidPointer abi s a).1 = true ∧ (n = 0 ∨ load8 s.mem a = 0)) := by
  constructor
  · intro h
    constructor
    · simp only [_read, IsValidPointer_of_valid abi s a h, IsValidPointer_again abi s a h,
        Bool.not_true, Bool.false_eq_true, if_false]
    · intro hn hmax
      rw [ReadString_of_valid max_size abi s a n h hn hmax]
      constructor
      · intro hr
        exact (c_str_loadBytes_eq_nil s.mem a n).mp (Outcome.returned.inj hr)
      · intro hz
        show Outcome.returned (c_str (loadBytes s.mem a n)) = Outcome.returned []
        rw [(c_str_loadBytes_eq_nil s.mem a n).mpr hz]
  · intro hempty
    cases hv : (IsValidPointer abi s a).1 with
    | true =>
      have hstr := ReadString_returned_of_valid max_size abi s a n hv [] hempty
      exact ⟨rfl, (c_str_loadBytes_eq_nil s.mem a n).mp hstr.symm⟩
    | false =>
      rw [ReadString_of_invalid max_size abi s a n hv] at hempty
      have hne : invalidPointer ≠ [] := by decide
      exact absurd (Outcome.returned.inj hempty) hne

set_option maxRecDepth 100000 in
/-- Instance of `ReadString_copy_succeeds`: `ReadString(0x100005002, 3)` in
`stringState`, where the byte at `0x100005002` is zero. -/
theorem ReadString_copy_succeeds_witness :
    (IsValidPointer darwin stringState 0x100005002).1 = true
      ∧ (ReadString 0x7fffffffffffffff darwin stringState 0x100005002 3).1 = Outcome.returned []
      ∧ (_read darwin (IsValidPointer darwin stringState 0x100005002).2 0x100005002
          (List.replicate ((3 + 1) % 2 ^ 64) 0) 3).1 = true
      ∧ (3 + 1 ≤ 0x7fffffffffffffff → 0x7fffffffffffffff < 2 ^ 64 →
          ((ReadString 0x7fffffffffffffff darwin stringState 0x100005002 3).1
              = Outcome.returned []
            ↔ (3 = 0 ∨ load8 stringState.mem 0x100005002 = 0)))
      ∧ ((IsValidPointer darwin stringState 0x100005002).1 = true
          ∧ (3 = 0 ∨ load8 stringState.mem 0x100005002 = 0)) :=
  ⟨by decide, by decide,
    ((ReadString_copy_succeeds 0x7fffffffffffffff darwin stringState 0x100005002 3).1
      (by decide)).1,
    ((ReadString_copy_succeeds 0x7fffffffffffffff darwin stringState 0x100005002 3).1
      (by decide)).2,
    (ReadString_copy_succeeds 0x7fffffffffffffff darwin stringState 0x100005002 3).2 (by decide)⟩

/-- C17: a successful `Write` does not change what is valid. For every valid
address `a`, type `T`, value `v` and address `b`, `IsValidPointer(b)` gives the
same answer after `Write<T>(a, v)` as before, and `GetFullAddr` returns the same
map, whatever bytes were overwritten. -/
theorem Write_keeps_validity {T : Type} (ct : CType T) (abi : ABI) (s : State) (a : Nat) (v : T)
    (h : (IsValidPointer abi s a).1 = true) (b : Nat) :
    (IsValidPointer abi (Write ct abi s a v) b).1 = (IsValidPointer abi s b).1
      ∧ (GetFullAddr abi (Write ct abi s a v)).1 = (GetFullAddr abi s).1 := by
  have hne := ranges_ne_nil_of_valid abi s a h
  rw [Write_of_valid ct abi s a v h]
  have hne2 : ({ (GetFullAddr abi s).2 with
      mem := storeBytes s.mem a (ct.toBytes v) } : State).ranges ≠ [] := hne
  rw [IsValidPointer_of_cached abi _ b hne2, GetFullAddr_of_nonempty abi _ hne2]
  show rangeLoop b (GetFullAddr abi s).2.ranges = _ ∧ (GetFullAddr abi s).2.ranges = _
  rw [GetFullAddr_ranges]
  exact ⟨rfl, rfl⟩

set_option maxRecDepth 100000 in
/-- Instance of `Write_keeps_validity`: in `headerState` the Mach-O header at
`0x1000` lies inside the only range, `[0x1000, 0x5000)`. `Write<int32>(0x1000, 0)`
overwrites the magic, so that a walk of the images would now find nothing, and
`0x1004` is valid before and after the write. -/
theorem Write_keeps_validity_witness :
    (IsValidPointer darwin headerState 0x1000).1 = true
      ∧ load32 (Write int32 darwin headerState 0x1000 0).mem (0x1000 + darwin.off_magic) = 0
      ∧ imageLoop darwin (Write int32 darwin headerState 0x1000 0).mem headerState.images [] = []
      ∧ (IsValidPointer darwin headerState 0x1004).1 = true
      ∧ (IsValidPointer darwin (Write int32 darwin headerState 0x1000 0) 0x1004).1
          = (IsValidPointer darwin headerState 0x1004).1
      ∧ (GetFullAddr darwin (Write int32 darwin headerState 0x1000 0)).1
          = (GetFullAddr darwin headerState).1 :=
  ⟨by decide, by decide, by decide, by decide,
    Write_keeps_validity int32 darwin headerState 0x1000 0 (by decide) 0x1004⟩

end MemX
